import Mathlib

/-!
Verification of the SeeSharp xUnit report pipeline.

The Go sources are shallowly embedded here.  A Go string is modelled as its
byte sequence, `List Nat` (each element a byte value `< 256`), because the
scanner in the `camelcase` package indexes strings byte by byte
(`v[pos]` in Go yields a byte, and `rune(v[pos])` reinterprets that single
byte as a code point).  All embedded functions are structurally recursive so
that they evaluate on concrete inputs inside the kernel.
-/

/-- A Go string, as its sequence of bytes. -/
abbrev GoStr := List Nat

/-- Bytes of an ASCII string literal.  For ASCII text the code points equal
the UTF-8 bytes, so this matches the Go byte representation. -/
def strBytes (s : String) : GoStr := s.toList.map Char.toNat

/-! ### The Go `unicode` package, restricted to single bytes

The `camelcase` scanner only ever applies the `unicode` predicates to
`rune(v[pos])` where `v[pos]` is one byte, so only code points `0`–`255`
(the Latin-1 range) can occur.  The sets below transcribe the Go `unicode`
tables on that range. -/

/-- Go `unicode.IsUpper` on a byte-sized code point: `A`–`Z` and the
Latin-1 uppercase letters `À`–`Ö` (0xC0–0xD6) and `Ø`–`Þ` (0xD8–0xDE). -/
def goIsUpper (b : Nat) : Bool :=
  (65 ≤ b && b ≤ 90) || (192 ≤ b && b ≤ 214) || (216 ≤ b && b ≤ 222)

/-- Go `unicode.IsLower` on a byte-sized code point: `a`–`z`, `µ` (0xB5),
`ß`–`ö` (0xDF–0xF6) and `ø`–`ÿ` (0xF8–0xFF). -/
def goIsLower (b : Nat) : Bool :=
  (97 ≤ b && b ≤ 122) || b == 181 || (223 ≤ b && b ≤ 246) || (248 ≤ b && b ≤ 255)

/-- Go `unicode.IsNumber` on a byte-sized code point: `0`–`9` plus the
Latin-1 number signs `²`, `³`, `¹`, `¼`, `½`, `¾`. -/
def goIsNumber (b : Nat) : Bool :=
  (48 ≤ b && b ≤ 57) || b == 178 || b == 179 || b == 185 ||
    b == 188 || b == 189 || b == 190

/-- Go `unicode.IsDigit` on a byte-sized code point: `0`–`9` only. -/
def goIsDigit (b : Nat) : Bool :=
  48 ≤ b && b ≤ 57

/-- Go `unicode.IsSpace` on a byte-sized code point: tab, LF, VT, FF, CR,
space, NEL (0x85) and NBSP (0xA0). -/
def goIsSpace (b : Nat) : Bool :=
  b == 9 || b == 10 || b == 11 || b == 12 || b == 13 ||
    b == 32 || b == 133 || b == 160

/-! ### The Go `strings` and `utf8` standard-library functions used by the
sources, over byte sequences. -/

/-- Go `strings.HasPrefix`. -/
def startsWith : GoStr → GoStr → Bool
  | _, [] => true
  | [], _ :: _ => false
  | a :: s, b :: p => a == b && startsWith s p

/-- Go `strings.Contains`: `sub` occurs as a contiguous byte substring of
`s`.  Every string contains the empty string. -/
def goContains : GoStr → GoStr → Bool
  | [], sub => startsWith [] sub
  | a :: t, sub => startsWith (a :: t) sub || goContains t sub

/-- Go `strings.LastIndex(s, b)` for a single-byte needle `b`:
the index of the last occurrence of the byte, or `-1` if absent.
(The needles used by the sources — `.`, `(`, `/`, `\` — are ASCII bytes,
which never occur inside a multi-byte UTF-8 encoding, so searching bytes
matches searching the string.) -/
def goLastIndexByte : GoStr → Nat → Int
  | [], _ => -1
  | a :: t, b =>
    let r := goLastIndexByte t b
    if 0 ≤ r then r + 1 else if a == b then 0 else -1

/-- Go `strings.ContainsRune(s, r)` for an ASCII rune: the byte occurs. -/
def containsByte (s : GoStr) (b : Nat) : Bool :=
  s.any (· == b)

/-- Go slice expression `s[i:]`. -/
def sliceFrom (s : GoStr) (i : Nat) : GoStr :=
  s.drop i

/-- Go slice expression `s[:i]`. -/
def sliceTo (s : GoStr) (i : Nat) : GoStr :=
  s.take i

/-- Go `strings.Split(s, sep)` for a single-byte separator. -/
def splitOnByte (b : Nat) : GoStr → List GoStr
  | [] => [[]]
  | c :: t =>
    if c == b then
      [] :: splitOnByte b t
    else
      match splitOnByte b t with
      | [] => [[c]]
      | p :: ps => (c :: p) :: ps

/-- Go `strings.Join(elems, sep)`. -/
def goJoin (sep : GoStr) : List GoStr → GoStr
  | [] => []
  | [x] => x
  | x :: y :: xs => x ++ sep ++ goJoin sep (y :: xs)

/-- Go `strings.ToLower`, restricted to ASCII content: byte values
`A`–`Z` map to `a`–`z`.  (All strings lower-cased by the sources in the
verified properties are ASCII; Go's full Unicode case mapping on other
code points is outside the modelled range.) -/
def goToLower (s : GoStr) : GoStr :=
  s.map fun b => if 65 ≤ b && b ≤ 90 then b + 32 else b

/-- Second byte of a multi-byte UTF-8 encoding: `0x80`–`0xBF`. -/
def isCont (b : Nat) : Bool :=
  128 ≤ b && b ≤ 191

/-- Go `utf8.ValidString` over the byte sequence: the exact accept ranges
of the Go `utf8` package (rejecting overlong encodings, surrogates and
code points above `U+10FFFF`). -/
def validUTF8 : List Nat → Bool
  | [] => true
  | b :: rest =>
    if b ≤ 127 then validUTF8 rest
    else if 194 ≤ b && b ≤ 223 then
      match rest with
      | b1 :: rest' => isCont b1 && validUTF8 rest'
      | [] => false
    else if b == 224 then
      match rest with
      | b1 :: b2 :: rest' => (160 ≤ b1 && b1 ≤ 191) && isCont b2 && validUTF8 rest'
      | _ => false
    else if 225 ≤ b && b ≤ 236 then
      match rest with
      | b1 :: b2 :: rest' => isCont b1 && isCont b2 && validUTF8 rest'
      | _ => false
    else if b == 237 then
      match rest with
      | b1 :: b2 :: rest' => (128 ≤ b1 && b1 ≤ 159) && isCont b2 && validUTF8 rest'
      | _ => false
    else if 238 ≤ b && b ≤ 239 then
      match rest with
      | b1 :: b2 :: rest' => isCont b1 && isCont b2 && validUTF8 rest'
      | _ => false
    else if b == 240 then
      match rest with
      | b1 :: b2 :: b3 :: rest' =>
        (144 ≤ b1 && b1 ≤ 191) && isCont b2 && isCont b3 && validUTF8 rest'
      | _ => false
    else if 241 ≤ b && b ≤ 243 then
      match rest with
      | b1 :: b2 :: b3 :: rest' => isCont b1 && isCont b2 && isCont b3 && validUTF8 rest'
      | _ => false
    else if b == 244 then
      match rest with
      | b1 :: b2 :: b3 :: rest' =>
        (128 ≤ b1 && b1 ≤ 143) && isCont b2 && isCont b3 && validUTF8 rest'
      | _ => false
    else false

/-! ### Package `camelcase` (file `paths_test.go`, third document)

`Split` scans the string position by position.  Each Go helper loop
`for idx = idx + 1; idx < len(v) && p(v[idx]); idx++ { } ; return idx - 1`
returns `idx + (length of the run of bytes satisfying p starting at idx+1)`;
the run length is `takeWhileLen p (v.drop (idx+1))`. -/

/-- Length of the longest prefix of `l` whose bytes all satisfy `p`. -/
def takeWhileLen (p : Nat → Bool) : List Nat → Nat
  | [] => 0
  | a :: t => if p a then takeWhileLen p t + 1 else 0

namespace camelcase

/-- Go `isValid`: `v` is non-empty and valid UTF-8. -/
def isValid (v : GoStr) : Bool :=
  validUTF8 v && v.length > 0

/-- Go `getNumberEndPos`: last position of the numeric run that starts at
`idx` (the loop scans from `idx + 1` while `unicode.IsNumber` holds). -/
def getNumberEndPos (v : GoStr) (idx : Nat) : Nat :=
  idx + takeWhileLen goIsNumber (v.drop (idx + 1))

/-- Go `getSpaceEndPos`: last position of the whitespace run starting at
`idx`. -/
def getSpaceEndPos (v : GoStr) (idx : Nat) : Nat :=
  idx + takeWhileLen goIsSpace (v.drop (idx + 1))

/-- Go `getWordEndPos`.  If the byte after `idx` is uppercase, the loop
consumes the uppercase run from `idx + 1` up to its first failing position
`j`; the result is `j - 1` at end of string, `j - 1` when the run stops at
a digit, and `j - 2` otherwise.  If the byte after `idx` is not uppercase,
the result is the last position of the lowercase run starting at
`idx + 1`. -/
def getWordEndPos (v : GoStr) (idx : Nat) : Nat :=
  if idx + 1 < v.length && goIsUpper (v.getD (idx + 1) 0) then
    let j := idx + 1 + takeWhileLen goIsUpper (v.drop (idx + 1))
    if j < v.length then
      if goIsDigit (v.getD j 0) then j - 1 else j - 2
    else j - 1
  else
    idx + takeWhileLen goIsLower (v.drop (idx + 1))

/-- The scanning loop of Go `Split`, collecting the word end indexes
(each recorded value is `endPos + 1`).  After handling a run the loop
continues at `endPos + 1`; a byte of no known class is stepped over.
Every `endPos` is `≥ pos`, so each iteration advances the position by at
least one; the fuel `v.length` therefore suffices to drive the loop to
`pos ≥ v.length`, faithfully reproducing the Go loop. -/
def scanIndexesF : Nat → GoStr → Nat → List Nat
  | 0, _, _ => []
  | fuel + 1, v, pos =>
    if pos < v.length then
      let c := v.getD pos 0
      if goIsNumber c then
        (getNumberEndPos v pos + 1) :: scanIndexesF fuel v (getNumberEndPos v pos + 1)
      else if goIsUpper c || goIsLower c then
        (getWordEndPos v pos + 1) :: scanIndexesF fuel v (getWordEndPos v pos + 1)
      else if goIsSpace c then
        (getSpaceEndPos v pos + 1) :: scanIndexesF fuel v (getSpaceEndPos v pos + 1)
      else
        scanIndexesF fuel v (pos + 1)
    else []

/-- Go `extractWordsByIndexes`: each end index `≤ len(v)` yields the slice
from the previous raw end index (0 for the first) up to it.  (Go also
checks `endIndex >= 0`, which is vacuous over `Nat`: the scanner only
records values of the form `endPos + 1`.) -/
def extractWordsByIndexes (v : GoStr) : Nat → List Nat → List GoStr
  | _, [] => []
  | prev, e :: rest =>
    if e ≤ v.length then
      ((v.drop prev).take (e - prev)) :: extractWordsByIndexes v e rest
    else
      extractWordsByIndexes v e rest

/-- Go `camelcase.Split`: fail-soft single-token fallback for empty or
invalid input, otherwise scan and slice. -/
def Split (v : GoStr) : List GoStr :=
  if !isValid v then [v]
  else extractWordsByIndexes v 0 (scanIndexesF v.length v 0)

end camelcase

namespace gosentence

/-- One step of the Go `Transform` loop: the word at index 0 is kept, a
word in `noTransform` is kept, any other word is lower-cased. -/
def transformWords (noTransform : List GoStr) : Nat → List GoStr → List GoStr
  | _, [] => []
  | idx, w :: ws =>
    (if idx == 0 then w
     else if noTransform.contains w then w
     else goToLower w) :: transformWords noTransform (idx + 1) ws

/-- Go `gosentence.Transform`: build the transformed word list and join it
with single spaces. -/
def Transform (v : List GoStr) (noTransform : List GoStr) : GoStr :=
  goJoin [32] (transformWords noTransform 0 v)

end gosentence

/-! ### Package `paths` and package `maps`

Only the tests of these two packages are part of the sources, not their
implementations, so the two functions are modelled from the spec. -/

/-- Modelled from the spec: `paths.Name` (implementation not under `src/`).
Per §4.4 it takes the text after the last path separator, supporting both
forward slash and backslash; a path with no separator returns itself. -/
def pathsName (s : GoStr) : GoStr :=
  sliceFrom s (max (goLastIndexByte s 47) (goLastIndexByte s 92) + 1).toNat

/-- Byte-wise lexicographic order on Go strings (the order of Go's `<` on
strings); the empty string precedes every string. -/
def lexLe : GoStr → GoStr → Bool
  | [], _ => true
  | _ :: _, [] => false
  | a :: s, b :: t => if a < b then true else if b < a then false else lexLe s t

/-- Insert into a lexicographically sorted list of strings. -/
def insertSorted (x : GoStr) : List GoStr → List GoStr
  | [] => [x]
  | y :: t => if lexLe x y then x :: y :: t else y :: insertSorted x t

/-- Insertion sort by `lexLe`. -/
def sortStrings : List GoStr → List GoStr
  | [] => []
  | x :: t => insertSorted x (sortStrings t)

/-- Concatenation of a token list back into one string. -/
def concatAll : List GoStr → GoStr
  | [] => []
  | x :: t => x ++ concatAll t

namespace xunit

/-- The defaults for the numeric attributes (Go `int`). -/
abbrev GoInt := Int

/-- One `<trait name value>` element of the intermediate tree. -/
structure trait where
  Name : GoStr
  Value : GoStr
deriving DecidableEq

/-- One `<test>` element of the intermediate tree.  The Go struct nests the
traits inside a `TraitSet` wrapper (`t.TraitSet.Traits`); the wrapper is
flattened to the field `Traits` here.  `Type` is a reserved word in Lean,
hence `Type'`.  The Go `Time` field is a `float32` that is only ever copied,
never computed with, so it is modelled as an opaque `Nat` tag. -/
structure test where
  Name : GoStr
  Type' : GoStr
  Result : GoStr
  Time : Nat
  Traits : List trait

/-- One `<collection>` element of the intermediate tree. -/
structure collection where
  Tests : List test

/-- One `<assembly>` element of the intermediate tree.  (The Go struct also
carries a scratch field `testMap`, filled by `uniqueTraits`; the model
passes that map around explicitly instead.) -/
structure assembly where
  FullName : GoStr
  ErrorCount : GoInt
  PassedCount : GoInt
  FailedCount : GoInt
  NotRunCount : GoInt
  Total : GoInt
  RunDate : GoStr
  RunTime : GoStr
  TimeRTF : GoStr
  Time : Nat
  Collections : List collection

/-- The root of the intermediate tree (Go struct `result`). -/
structure result where
  Computer : GoStr
  User : GoStr
  Timestamp : GoStr
  StartRTF : GoStr
  FinishRTF : GoStr
  Assemblies : List assembly

/-- Final report model: a single test (struct `TestCase`).  `groups` is the
internal (unexported) field. -/
structure TestCase where
  Name : GoStr
  Result : GoStr
  Time : Nat
  groups : List GoStr
deriving DecidableEq

/-- Final report model: a group of tests (struct `TestGroup`).  In Go the
`Groups` field holds pointers; the model holds the trees directly. -/
inductive TestGroup : Type where
  | mk : GoStr → List TestCase → List TestGroup → TestGroup

/-- The `Name` field of a `TestGroup`. -/
def TestGroup.Name : TestGroup → GoStr
  | .mk n _ _ => n

/-- The `Tests` field of a `TestGroup`. -/
def TestGroup.Tests : TestGroup → List TestCase
  | .mk _ ts _ => ts

/-- The `Groups` field of a `TestGroup`. -/
def TestGroup.Groups : TestGroup → List TestGroup
  | .mk _ _ gs => gs

/-- Final report model: one assembly (struct `Assembly`). -/
structure Assembly where
  Name : GoStr
  ErrorCount : GoInt
  PassedCount : GoInt
  FailedCount : GoInt
  NotRunCount : GoInt
  TotalCount : GoInt
  RunDate : GoStr
  RunTime : GoStr
  Time : Nat
  TimeRTF : GoStr
  TestGroups : List TestGroup

/-- Final report model: the whole run (struct `TestRun`). -/
structure TestRun where
  Computer : GoStr
  User : GoStr
  StartTimeRTF : GoStr
  EndTimeRTF : GoStr
  Timestamp : GoStr
  Assemblies : List Assembly

/-- Go `(*test).hasDisplayName`: the name does not contain the type as a
substring.  (The comment on the Go function instead documents: a name
containing a space is a display name.) -/
def test.hasDisplayName (t : test) : Bool :=
  !goContains t.Name t.Type'

/-- Go `(*test).isNested`: no display name and the name contains `+`. -/
def test.isNested (t : test) : Bool :=
  !t.hasDisplayName && goContains t.Name [43]

/-- Go `(*trait).friendlyName`: `Name - Value` (builder writes the name,
the literal " - ", then the value). -/
def trait.friendlyName (t : trait) : GoStr :=
  t.Name ++ [32, 45, 32] ++ t.Value

/-- The non-display-name branch of Go `(*test).friendlyName`: take the text
after the last `.`, strip a trailing `(`-delimited parameter list, split
with `camelcase` and render with `gosentence`. -/
def defaultFriendly (name : GoStr) : GoStr :=
  let fnName := sliceFrom name (goLastIndexByte name 46 + 1).toNat
  let fnName :=
    if containsByte fnName 40 then sliceTo fnName (goLastIndexByte fnName 40).toNat
    else fnName
  gosentence.Transform (camelcase.Split fnName) []

/-- Go `(*test).friendlyName`. -/
def test.friendlyName (t : test) : GoStr :=
  if t.hasDisplayName then t.Name
  else defaultFriendly t.Name

/-- Go `(*test).groups`: for a nested test, split the name on `+`; the
path is the portion of the first segment after its last `.`, the interior
segments, and the first portion of the last segment split on `.`; each
part is split with `camelcase` and rendered with `gosentence`. -/
def test.groups (t : test) : List GoStr :=
  if !t.isNested then []
  else
    let groupName := splitOnByte 43 t.Name
    let groupNameParts :=
      [sliceFrom (groupName.headD []) (goLastIndexByte (groupName.headD []) 46 + 1).toNat]
        ++ (groupName.drop 1).dropLast
        ++ [(splitOnByte 46 (groupName.getLastD [])).headD []]
    groupNameParts.map fun p => gosentence.Transform (camelcase.Split p) []

/-- The Go scratch map `assembly.testMap`, `map[string][]TestCase`, as an
association list in key-insertion order (Go map iteration order is
irrelevant: the map is only read through `maps.SortedKeys` and keyed
lookup). -/
abbrev TMap := List (GoStr × List TestCase)

/-- Keyed lookup, `m[k]` (a missing key yields the empty slice). -/
def mapGet : TMap → GoStr → List TestCase
  | [], _ => []
  | (k', v) :: t, k => if k' = k then v else mapGet t k

/-- Go `m[k] = append(m[k], c)`. -/
def mapAppend : TMap → GoStr → TestCase → TMap
  | [], k, c => [(k, [c])]
  | (k', v) :: t, k, c =>
    if k' = k then (k', v ++ [c]) :: t else (k', v) :: mapAppend t k c

/-- The keys of the scratch map. -/
def keysOfMap (m : TMap) : List GoStr :=
  m.map Prod.fst

/-- Modelled from the spec: `maps.SortedKeys` (implementation not under
`src/`; per §4.4 and its test, the keys sorted ascending — for string keys
the lexicographic order, empty string first). -/
def sortedKeys (m : TMap) : List GoStr :=
  sortStrings (keysOfMap m)

/-- The `TestCase` built for a test by Go `uniqueTraits`. -/
def toCase (t : test) : TestCase :=
  ⟨t.friendlyName, t.Result, t.Time, t.groups⟩

/-- The body of the Go `uniqueTraits` loop for one test: a test without
traits is appended to the empty-string bucket; then each trait appends the
test to the bucket of its friendly name. -/
def addTest (m : TMap) (t : test) : TMap :=
  let tCase := toCase t
  let m := if t.Traits.length == 0 then mapAppend m [] tCase else m
  t.Traits.foldl (fun m' tr => mapAppend m' (tr.friendlyName) tCase) m

/-- All tests of an assembly, in collection order (the nested
`for collection / for test` loops of `uniqueTraits`). -/
def testsOf (a : assembly) : List test :=
  (a.Collections.map collection.Tests).flatten

/-- The scratch map built by Go `(*assembly).uniqueTraits`. -/
def buildTestMap (a : assembly) : TMap :=
  (testsOf a).foldl addTest []

/-- Go `(*assembly).uniqueTraits` returns the sorted unique trait names and
(as a side effect on the Go struct) the filled `testMap`; the model returns
the pair. -/
def assembly.uniqueTraits (a : assembly) : TMap × List GoStr :=
  (buildTestMap a, sortedKeys (buildTestMap a))

/-- Go `(*assembly).hasTests`: some collection has a test. -/
def assembly.hasTests (a : assembly) : Bool :=
  a.Collections.any fun c => c.Tests.length > 0

/-- The child-list update of the Go nested-group walk: find the first
child named `n` and replace it by `f` of it; if there is none, append `f`
of a fresh group named `n`. -/
def insertChildren (n : GoStr) (f : TestGroup → TestGroup) :
    List TestGroup → List TestGroup
  | [] => [f (TestGroup.mk n [] [])]
  | h :: t => if h.Name = n then f h :: t else h :: insertChildren n f t

/-- The inner loop of Go `groupTests` for one nested test case: walk (and
create) the chain of groups named by the path; the test case is appended
to the `Tests` of the group at the last path component. -/
def insertPath (g : TestGroup) : List GoStr → TestCase → TestGroup
  | [], _ => g
  | n :: rest, tc =>
    TestGroup.mk g.Name g.Tests (insertChildren n (fun c =>
      match rest with
      | [] => TestGroup.mk c.Name (c.Tests ++ [tc]) c.Groups
      | r :: rs => insertPath c (r :: rs) tc) g.Groups)

/-- One step of the Go `groupTests` loop over a bucket: a case without
groups goes into the bucket root's own `Tests`; otherwise it is inserted
along its group path. -/
def placeCase (g : TestGroup) (tc : TestCase) : TestGroup :=
  if tc.groups = [] then TestGroup.mk g.Name (g.Tests ++ [tc]) g.Groups
  else insertPath g tc.groups tc

/-- The group tree Go `groupTests` builds for one trait bucket. -/
def groupForKey (m : TMap) (k : GoStr) : TestGroup :=
  (mapGet m k).foldl placeCase (TestGroup.mk k [] [])

/-- Go `(*assembly).groupTests`: the empty slice when the assembly has no
tests, otherwise one group tree per sorted unique trait. -/
def assembly.groupTests (a : assembly) : List TestGroup :=
  if !a.hasTests then []
  else
    let (m, uniqueTraits) := a.uniqueTraits
    uniqueTraits.map (groupForKey m)

/-- Go `readResult`: the final report model of a decoded intermediate
tree. -/
def readResult (r : result) : TestRun :=
  ⟨r.Computer, r.User, r.StartRTF, r.FinishRTF, r.Timestamp,
    r.Assemblies.map fun a =>
      ⟨pathsName a.FullName, a.ErrorCount, a.PassedCount, a.FailedCount,
        a.NotRunCount, a.Total, a.RunDate, a.RunTime, a.Time, a.TimeRTF,
        a.groupTests⟩⟩

/-- The error kinds of the decoder, per the spec's `DecodeError` taxonomy. -/
inductive DecodeError : Type where
  | emptyInput : DecodeError
  | malformedXML : DecodeError
  | missingMarker : DecodeError
deriving DecidableEq

/-- The zero value `TestRun{}` returned by `Load` on error (all fields at
their Go zero values). -/
def zeroTestRun : TestRun :=
  ⟨[], [], [], [], [], []⟩

/-- Go `xunit.Load`, abstracted over the outcome of `unmarshal` (whose
implementation is not under `src/`): on error return the zero `TestRun`
and the error, otherwise the report built by `readResult`. -/
def Load (unmarshalled : Except DecodeError result) : TestRun × Option DecodeError :=
  match unmarshalled with
  | .error e => (zeroTestRun, some e)
  | .ok r => (readResult r, none)

/-- Modelled from the spec: the error contract of `unmarshal` (its
implementation is not under `src/`).  Per §4.1 and §7 it fails with a
`DecodeError` when the stream is empty, when it is not well-formed XML, or
when the document marker is absent, and succeeds otherwise.  The
well-formedness test, the marker test and the successful parse are
parameters, since the spec does not define the XML grammar itself. -/
def unmarshalModel (wellFormed marker : GoStr → Bool) (parse : GoStr → result)
    (input : GoStr) : Except DecodeError result :=
  if input = [] then .error .emptyInput
  else if !wellFormed input then .error .malformedXML
  else if !marker input then .error .missingMarker
  else .ok (parse input)

/-- Modelled from the spec: the intermediate tree decoded from the document
`<assemblies />` — all optional attributes default to the empty string and
there are no assembly elements (§4.1, §6, §8). -/
def emptyAssembliesResult : result :=
  ⟨[], [], [], [], [], []⟩

/-! ### Observation helpers for the group trees

These walk a group tree along a path of group names; they are the
specification-side instruments used to state where `groupTests` places a
test case, and how often. -/

/-- The first group of a given name in a child list (the linear scan of
the Go walk). -/
def findGroup : List TestGroup → GoStr → Option TestGroup
  | [], _ => none
  | h :: t, n => if h.Name = n then some h else findGroup t n

/-- The subgroup reached from `g` by following a path of group names. -/
def subgroupAt : TestGroup → List GoStr → Option TestGroup
  | g, [] => some g
  | g, n :: rest =>
    match findGroup g.Groups n with
    | some c => subgroupAt c rest
    | none => none

/-- Occurrences of a test case in a list. -/
def countCase : List TestCase → TestCase → Nat
  | [], _ => 0
  | y :: t, x => (if y = x then 1 else 0) + countCase t x

/-- Occurrences of a string in a list. -/
def countStr : List GoStr → GoStr → Nat
  | [], _ => 0
  | y :: t, x => (if y = x then 1 else 0) + countStr t x

/-- Occurrences of the test case `x` in the `Tests` of the subgroup of `g`
at path `p` (0 when the path does not exist). -/
def countAt (g : TestGroup) (p : List GoStr) (x : TestCase) : Nat :=
  match subgroupAt g p with
  | some sg => countCase sg.Tests x
  | none => 0

/-- The bucket keys a test is filed under: the empty-string key for a test
without traits, otherwise the rendered `Name - Value` of each of its
traits. -/
def keysOfTest (t : test) : List GoStr :=
  if t.Traits = [] then [[]] else t.Traits.map trait.friendlyName

/-- How often the source tests of an assembly file a given test case under
a given bucket key: for each test of the assembly whose built case is `x`,
the number of its bucket keys equal to `k`. -/
def bucketSourceCount (a : assembly) (k : GoStr) (x : TestCase) : Nat :=
  ((testsOf a).map fun t => if toCase t = x then countStr (keysOfTest t) k else 0).sum

/-! ### Claim-side definitions and concrete fixtures -/

/-- One path component split into words and rendered as a sentence. -/
def humanize (p : GoStr) : GoStr :=
  gosentence.Transform (camelcase.Split p) []

/-- The structural-path derivation exactly as the claim words it: split the
name on `+`; the first component is the portion of the first segment after
its final `.`; the interior segments are taken literally; the terminal
component is the portion of the last segment BEFORE ITS FINAL `.`; each
component is humanized. -/
def claimNestedPath (name : GoStr) : List GoStr :=
  let segs := splitOnByte 43 name
  let firstPart := sliceFrom (segs.headD []) (goLastIndexByte (segs.headD []) 46 + 1).toNat
  let lastPart := sliceTo (segs.getLastD []) (goLastIndexByte (segs.getLastD []) 46).toNat
  ([firstPart] ++ (segs.drop 1).dropLast ++ [lastPart]).map humanize

/-- The amended structural-path derivation: as above, but the terminal
component is the portion of the last segment before its FIRST `.` (the
head of its `.`-split), which is what the code computes. -/
def amendedNestedPath (name : GoStr) : List GoStr :=
  let segs := splitOnByte 43 name
  let firstPart := sliceFrom (segs.headD []) (goLastIndexByte (segs.headD []) 46 + 1).toNat
  let lastPart := (splitOnByte 46 (segs.getLastD [])).headD []
  ([firstPart] ++ (segs.drop 1).dropLast ++ [lastPart]).map humanize

/-- The nested test of the spec's worked example (§8). -/
def exampleNestedTest : test :=
  ⟨strBytes "NS1.Class.SubClass.TestClass+Method+Scenario+SubScenario.Result",
    strBytes "NS1.Class.SubClass.TestClass+Method+Scenario+SubScenario",
    strBytes "Pass", 0, []⟩

/-- A nested test whose last `+`-segment contains two dots: the group path
the code derives for it differs from the claimed derivation. -/
def twoDotNestedTest : test :=
  ⟨strBytes "NS.Outer+Deep.Nested.Result", strBytes "NS.Outer+Deep.Nested",
    strBytes "Pass", 0, []⟩

/-- A test whose name contains spaces (an explicit display name) but also
contains its type as a substring. -/
def spacedNameTest : test :=
  ⟨strBytes "NS.My+Method is fast", strBytes "NS.My+Method",
    strBytes "Pass", 0, []⟩

/-- A test with an explicit display name but an empty `type` attribute. -/
def emptyTypeTest : test :=
  ⟨strBytes "My display + name", [], strBytes "Pass", 0, []⟩

/-- An assembly with one collection and no tests. -/
def noTestsAssembly : assembly :=
  ⟨strBytes "app.dll", 0, 0, 0, 0, 0, [], [], [], 0, [⟨[]⟩]⟩

/-- An assembly with a traitless nested test and a flat test carrying one
trait. -/
def mixedAssembly : assembly :=
  ⟨strBytes "app.dll", 0, 1, 1, 0, 2, [], [], [], 0,
    [⟨[⟨strBytes "NS.A+B.M", strBytes "NS.A+B", strBytes "Fail", 0, []⟩,
       ⟨strBytes "Nice test", strBytes "X", strBytes "Pass", 0,
         [⟨strBytes "Category", strBytes "Unit"⟩]⟩]⟩]⟩

end xunit

/-- The phrase composition exactly as the spec words it: the first word is
kept verbatim; each subsequent word is kept verbatim when it is a member of
the exception set and lower-cased otherwise; the words are joined by single
spaces; the empty sequence yields the empty phrase. -/
def specCompose : List GoStr → List GoStr → GoStr
  | [], _ => []
  | w :: ws, noTransform =>
    w ++ (ws.map fun u => if noTransform.contains u then u else goToLower u).foldl
      (fun acc u => acc ++ [32] ++ u) []


/-! ## Supporting lemmas -/

open xunit

/-- Every byte string contains the empty string as a substring. -/
theorem goContains_nil (s : GoStr) : goContains s [] = true := by
  cases s <;> simp [goContains, startsWith]

/-- Shifting the accumulator of the space-joining fold out to the front. -/
theorem foldl_sep_shift (t : List GoStr) (acc : GoStr) :
    t.foldl (fun a u => a ++ [32] ++ u) acc
      = acc ++ t.foldl (fun a u => a ++ [32] ++ u) [] := by
  induction t generalizing acc with
  | nil => simp
  | cons u t ih =>
    rw [show List.foldl (fun a u => a ++ [32] ++ u) acc (u :: t)
          = List.foldl (fun a u => a ++ [32] ++ u) (acc ++ [32] ++ u) t from rfl]
    rw [show List.foldl (fun a u => a ++ [32] ++ u) [] (u :: t)
          = List.foldl (fun a u => a ++ [32] ++ u) ([32] ++ u) t from rfl]
    rw [ih (acc ++ [32] ++ u), ih ([32] ++ u)]
    simp [List.append_assoc]

/-- `goJoin` with a space separator, written as a fold. -/
theorem goJoin_cons (x : GoStr) (l : List GoStr) :
    goJoin [32] (x :: l) = x ++ l.foldl (fun a u => a ++ [32] ++ u) [] := by
  induction l generalizing x with
  | nil => simp [goJoin]
  | cons u t ih =>
    rw [show goJoin [32] (x :: u :: t) = x ++ [32] ++ goJoin [32] (u :: t) from rfl, ih u]
    rw [show List.foldl (fun a u => a ++ [32] ++ u) [] (u :: t)
          = List.foldl (fun a u => a ++ [32] ++ u) ([32] ++ u) t from rfl]
    rw [foldl_sep_shift t ([32] ++ u)]
    simp [List.append_assoc]

/-- From index 1 on, the `Transform` loop is a plain map. -/
theorem transformWords_shift (noTransform : List GoStr) (ws : List GoStr) (n : Nat) :
    gosentence.transformWords noTransform (n + 1) ws
      = ws.map fun u => if noTransform.contains u then u else goToLower u := by
  induction ws generalizing n with
  | nil => rfl
  | cons w ws ih =>
    simp only [gosentence.transformWords, List.map_cons]
    rw [ih (n + 1)]
    simp

/-! ## Claim theorems -/

/-- C9: the Phrase Composer keeps the first word and every exception word
verbatim, lower-cases every other word, and joins with single spaces; the
empty sequence yields the empty phrase; and the two documented examples
hold. -/
theorem c9_transform_compose :
    (∀ v noTransform, gosentence.Transform v noTransform = specCompose v noTransform)
    ∧ gosentence.Transform
        [strBytes "A", strBytes "Collection", strBytes "Of", strBytes "Words"] []
        = strBytes "A collection of words"
    ∧ gosentence.Transform [strBytes "An", strBytes "HTTP", strBytes "&", strBytes "SqlQuery"]
        [strBytes "HTTP", strBytes "SqlQuery"] = strBytes "An HTTP & SqlQuery" := by
  refine ⟨fun v noT => ?_, by decide, by decide⟩
  cases v with
  | nil => rfl
  | cons w ws =>
    show goJoin [32] (gosentence.transformWords noT 0 (w :: ws)) = _
    rw [show gosentence.transformWords noT 0 (w :: ws)
          = w :: gosentence.transformWords noT 1 ws from rfl]
    rw [transformWords_shift, goJoin_cons]
    rfl

/-- C7: the Identifier Splitter never fails: an empty or invalid input is
returned whole as a single-element sequence. -/
theorem c7_split_failsoft (v : GoStr) (h : v = [] ∨ validUTF8 v = false) :
    camelcase.Split v = [v] := by
  rcases h with h | h
  · subst h; rfl
  · simp [camelcase.Split, camelcase.isValid, h]

/-- C7 witness: the empty string and the invalid-UTF-8 input of the test
corpus. -/
theorem c7_split_failsoft_witness :
    camelcase.Split [] = [[]]
    ∧ camelcase.Split (strBytes "BadUTF8" ++ [226, 226, 161])
        = [strBytes "BadUTF8" ++ [226, 226, 161]] :=
  ⟨c7_split_failsoft [] (Or.inl rfl), c7_split_failsoft _ (Or.inr (by decide))⟩

/-- C4, evaluated at the failing input: the two-byte string `é` (UTF-8
`0xC3 0xA9`) is non-empty and well-encoded, yet the splitter scans it byte
by byte, returns the single token `[0xC3]`, and the concatenation of the
output does not reproduce the input (the final byte is dropped). -/
theorem c4_lossless_split_eval :
    validUTF8 [195, 169] = true
    ∧ ([195, 169] : GoStr) ≠ []
    ∧ camelcase.Split [195, 169] = [[195]]
    ∧ concatAll (camelcase.Split [195, 169]) ≠ [195, 169] := by decide

/-- C5 counterexample, refuting both divergences of the documented rule
from the code.  First, by the documented rule `a` followed by a single
uppercase letter is not an acronym (two or more are required), so `"aB"`
should split into the two same-case runs `["a", "B"]`; the code triggers
its acronym branch on one following uppercase letter and returns
`["aB"]`.  Second, by the documented rule the acronym boundary falls one
character early only before an uppercase-to-lowercase transition, so in
`"AB "` — where the uppercase run is terminated by a space — the whole
run should be one token, `["AB", " "]`; the code backs off before every
non-digit terminator and returns `["A", "B", " "]`. -/
theorem c5_acronym_rule_counterexample :
    (camelcase.Split (strBytes "aB") = [strBytes "aB"]
      ∧ camelcase.Split (strBytes "aB") ≠ [strBytes "a", strBytes "B"])
    ∧ (camelcase.Split (strBytes "AB ") = [strBytes "A", strBytes "B", strBytes " "]
      ∧ camelcase.Split (strBytes "AB ") ≠ [strBytes "AB", strBytes " "]) := by decide

/-- C1, evaluated at the failing input: a test whose name contains spaces
(an explicit display name) but whose name also contains its type as a
substring; the code classifies it as not having a display name, classifies
it as nested, and humanizes its name instead of keeping it verbatim. -/
theorem c1_space_display_name_eval :
    containsByte spacedNameTest.Name 32 = true
    ∧ spacedNameTest.hasDisplayName = false
    ∧ spacedNameTest.isNested = true
    ∧ spacedNameTest.friendlyName ≠ spacedNameTest.Name := by decide

/-- C10: a test with an empty `type` attribute never counts as having a
display name (every string contains the empty string), is nested exactly
when its name contains `+`, and its friendly name is always the humanized
rendering. -/
theorem c10_empty_type_behavior (t : test) (h : t.Type' = []) :
    t.hasDisplayName = false
    ∧ t.isNested = goContains t.Name [43]
    ∧ t.friendlyName = defaultFriendly t.Name := by
  have hc : goContains t.Name [] = true := goContains_nil t.Name
  refine ⟨?_, ?_, ?_⟩
  · simp [test.hasDisplayName, h, hc]
  · simp [test.isNested, test.hasDisplayName, h, hc]
  · simp [test.friendlyName, test.hasDisplayName, h, hc]

/-- C10 witness: a test with an explicit display name (with spaces and a
`+`) and an empty type: the code humanizes the name and calls the test
nested. -/
theorem c10_empty_type_behavior_witness :
    emptyTypeTest.Type' = []
    ∧ (emptyTypeTest.hasDisplayName = false
       ∧ emptyTypeTest.isNested = goContains emptyTypeTest.Name [43]
       ∧ emptyTypeTest.friendlyName = defaultFriendly emptyTypeTest.Name) :=
  ⟨rfl, c10_empty_type_behavior emptyTypeTest rfl⟩

/-- C6: for every input that is empty, not well-formed, or lacking the
document marker, `Load` returns the zero-valued `TestRun` together with an
error — never a populated `TestRun`. -/
theorem c6_decode_error_zero_run (wellFormed marker : GoStr → Bool)
    (parse : GoStr → result) (input : GoStr)
    (h : input = [] ∨ wellFormed input = false ∨ marker input = false) :
    (Load (unmarshalModel wellFormed marker parse input)).1 = zeroTestRun
    ∧ (Load (unmarshalModel wellFormed marker parse input)).2.isSome = true := by
  unfold unmarshalModel
  rcases h with h | h | h
  · simp [h, Load]
  · by_cases he : input = [] <;> simp [he, h, Load]
  · by_cases he : input = [] <;> by_cases hw : wellFormed input <;> simp [he, h, hw, Load]

/-- C6 witness: a non-well-formed input stream. -/
theorem c6_decode_error_zero_run_witness :
    (Load (unmarshalModel (fun _ => false) (fun _ => true)
        (fun _ => emptyAssembliesResult) (strBytes "not xml"))).1 = zeroTestRun
    ∧ (Load (unmarshalModel (fun _ => false) (fun _ => true)
        (fun _ => emptyAssembliesResult) (strBytes "not xml"))).2.isSome = true :=
  c6_decode_error_zero_run _ _ _ _ (Or.inr (Or.inl rfl))

/-- C8: decoding `<assemblies />` succeeds with an empty assembly
sequence, and an assembly without tests gets an empty group sequence. -/
theorem c8_empty_decode (a : assembly) (h : a.hasTests = false) :
    (Load (Except.ok emptyAssembliesResult)).1.Assemblies = []
    ∧ (Load (Except.ok emptyAssembliesResult)).2 = none
    ∧ a.groupTests = [] := by
  refine ⟨rfl, rfl, ?_⟩
  simp [assembly.groupTests, h]

/-- C8 witness: an assembly with one collection and no tests. -/
theorem c8_empty_decode_witness :
    noTestsAssembly.hasTests = false
    ∧ ((Load (Except.ok emptyAssembliesResult)).1.Assemblies = []
       ∧ (Load (Except.ok emptyAssembliesResult)).2 = none
       ∧ noTestsAssembly.groupTests = []) :=
  ⟨rfl, c8_empty_decode noTestsAssembly rfl⟩

/-- C2 counterexample: a nested test whose last `+`-segment holds two
dots.  The claimed derivation takes the portion before the segment's FINAL
dot (`"Deep.Nested"`, humanized to `"Deep .nested"`); the code takes the
portion before the segment's FIRST dot (`"Deep"`). -/
theorem c2_terminal_component_counterexample :
    twoDotNestedTest.isNested = true
    ∧ twoDotNestedTest.groups = [strBytes "Outer", strBytes "Deep"]
    ∧ claimNestedPath twoDotNestedTest.Name = [strBytes "Outer", strBytes "Deep .nested"]
    ∧ twoDotNestedTest.groups ≠ claimNestedPath twoDotNestedTest.Name := by decide

/-- C2 amended: for every nested test, the group path is: the portion of
the first `+`-segment after its final `.`; the interior segments; and the
portion of the last segment before its FIRST `.`; each humanized. -/
theorem c2_group_path_amended (t : test) (h : t.isNested = true) :
    t.groups = amendedNestedPath t.Name := by
  show (if !t.isNested then [] else _) = _
  rw [h]
  rfl

set_option maxRecDepth 8192 in
/-- C2 witness: the spec's worked example, with its claimed group path and
leaf test name. -/
theorem c2_group_path_amended_witness :
    exampleNestedTest.isNested = true
    ∧ exampleNestedTest.groups
        = [strBytes "Test class", strBytes "Method", strBytes "Scenario",
           strBytes "Sub scenario"]
    ∧ exampleNestedTest.friendlyName = strBytes "Result" :=
  ⟨by decide,
    (c2_group_path_amended exampleNestedTest (by decide)).trans (by decide),
    by decide⟩

/-! ## Lexicographic order and insertion sort lemmas (for C3) -/

/-- `lexLe` unfolded on two non-empty strings. -/
theorem lexLe_cons (a b : Nat) (s t : GoStr) :
    lexLe (a :: s) (b :: t) = if a < b then true else if b < a then false else lexLe s t :=
  rfl

/-- `lexLe` is total. -/
theorem lexLe_total : ∀ a b : GoStr, lexLe a b = true ∨ lexLe b a = true
  | [], _ => Or.inl rfl
  | _ :: _, [] => Or.inr rfl
  | a :: s, b :: t => by
    by_cases hab : a < b
    · exact Or.inl (by rw [lexLe_cons, if_pos hab])
    · by_cases hba : b < a
      · exact Or.inr (by rw [lexLe_cons, if_pos hba])
      · have hev : a = b := Nat.le_antisymm (Nat.not_lt.mp hba) (Nat.not_lt.mp hab)
        subst hev
        rcases lexLe_total s t with h | h
        · exact Or.inl (by rw [lexLe_cons]; simp [h])
        · exact Or.inr (by rw [lexLe_cons]; simp [h])

/-- `lexLe` is transitive. -/
theorem lexLe_trans : ∀ a b c : GoStr,
    lexLe a b = true → lexLe b c = true → lexLe a c = true
  | [], _, _, _, _ => rfl
  | _ :: _, [], _, hab, _ => by simp [lexLe] at hab
  | _ :: _, _ :: _, [], _, hbc => by simp [lexLe] at hbc
  | a :: s, b :: t, c :: u, hab, hbc => by
    rw [lexLe_cons] at hab hbc ⊢
    by_cases h1 : a < b
    · by_cases h2 : b < c
      · rw [if_pos (Nat.lt_trans h1 h2)]
      · by_cases h3 : c < b
        · rw [if_neg h2, if_pos h3] at hbc; exact absurd hbc (by simp)
        · have : b = c := Nat.le_antisymm (Nat.not_lt.mp h3) (Nat.not_lt.mp h2)
          subst this
          rw [if_pos h1]
    · by_cases h4 : b < a
      · rw [if_neg h1, if_pos h4] at hab; exact absurd hab (by simp)
      · have : a = b := Nat.le_antisymm (Nat.not_lt.mp h4) (Nat.not_lt.mp h1)
        subst this
        rw [if_neg h1, if_neg h4] at hab
        by_cases h2 : a < c
        · rw [if_pos h2]
        · by_cases h3 : c < a
          · rw [if_neg h2, if_pos h3] at hbc; exact absurd hbc (by simp)
          · have : a = c := Nat.le_antisymm (Nat.not_lt.mp h3) (Nat.not_lt.mp h2)
            subst this
            rw [if_neg h2, if_neg h3] at hbc ⊢
            exact lexLe_trans s t u hab hbc

/-- Membership in `insertSorted`. -/
theorem mem_insertSorted (x y : GoStr) :
    ∀ l, (y ∈ insertSorted x l) ↔ (y = x ∨ y ∈ l)
  | [] => by simp [insertSorted]
  | z :: t => by
    by_cases h : lexLe x z = true
    · simp [insertSorted, h]
    · simp only [insertSorted, h]
      simp [mem_insertSorted x y t]
      tauto

/-- `insertSorted` preserves sortedness. -/
theorem pairwise_insertSorted (x : GoStr) :
    ∀ l, List.Pairwise (fun a b => lexLe a b = true) l →
      List.Pairwise (fun a b => lexLe a b = true) (insertSorted x l)
  | [], _ => by simp [insertSorted]
  | z :: t, hp => by
    rcases List.pairwise_cons.mp hp with ⟨hz, ht⟩
    by_cases h : lexLe x z = true
    · show List.Pairwise _ (if lexLe x z then _ else _)
      rw [if_pos h]
      refine List.pairwise_cons.mpr ⟨?_, hp⟩
      intro y hy
      rcases List.mem_cons.mp hy with rfl | hy
      · exact h
      · exact lexLe_trans x z y h (hz y hy)
    · show List.Pairwise _ (if lexLe x z then _ else _)
      rw [if_neg (by simpa using h)]
      refine List.pairwise_cons.mpr ⟨?_, pairwise_insertSorted x t ht⟩
      intro y hy
      rcases (mem_insertSorted x y t).mp hy with heq | hy
      · rw [heq]; exact (lexLe_total x z).resolve_left h
      · exact hz y hy

/-- `sortStrings` sorts. -/
theorem pairwise_sortStrings :
    ∀ l, List.Pairwise (fun a b => lexLe a b = true) (sortStrings l)
  | [] => List.Pairwise.nil
  | x :: t => pairwise_insertSorted x _ (pairwise_sortStrings t)

/-- `sortStrings` preserves membership. -/
theorem mem_sortStrings (y : GoStr) : ∀ l, (y ∈ sortStrings l) ↔ (y ∈ l)
  | [] => Iff.rfl
  | x :: t => by
    show (y ∈ insertSorted x (sortStrings t)) ↔ _
    rw [mem_insertSorted, mem_sortStrings y t]
    simp

/-- In a sorted list that contains the empty string, the head is the empty
string (it is the least element of `lexLe`). -/
theorem sorted_head_of_nil_mem :
    ∀ l, List.Pairwise (fun a b => lexLe a b = true) l →
      ([] : GoStr) ∈ l → l.head? = some []
  | [], _, h => absurd h (List.not_mem_nil _)
  | x :: t, hp, h => by
    rcases List.mem_cons.mp h with heq | h
    · rw [← heq]; rfl
    · have hx : lexLe x [] = true := (List.pairwise_cons.mp hp).1 [] h
      cases x with
      | nil => rfl
      | cons a s => simp [lexLe] at hx

/-! ## Bucket-map lemmas (for C3) -/

/-- `countCase` distributes over append. -/
theorem countCase_append :
    ∀ (l1 l2 : List TestCase) (x : TestCase),
      countCase (l1 ++ l2) x = countCase l1 x + countCase l2 x
  | [], l2, x => by simp [countCase]
  | y :: t, l2, x => by
    show (if y = x then 1 else 0) + countCase (t ++ l2) x
        = (if y = x then 1 else 0) + countCase t x + countCase l2 x
    rw [countCase_append t l2 x]
    omega

/-- Appending one case to a bucket raises exactly that bucket's count of
exactly that case by one. -/
theorem countCase_mapGet_mapAppend :
    ∀ (m : TMap) (k : GoStr) (c : TestCase) (k' : GoStr) (x : TestCase),
      countCase (mapGet (mapAppend m k c) k') x
        = countCase (mapGet m k') x
          + (if k = k' then (if c = x then 1 else 0) else 0)
  | [], k, c, k', x => by
    by_cases h : k = k' <;> simp [mapAppend, mapGet, h, countCase]
  | (k0, v0) :: t, k, c, k', x => by
    by_cases h0 : k0 = k
    · subst h0
      by_cases h1 : k0 = k'
      · subst h1
        simp [mapAppend, mapGet, countCase_append, countCase]
      · simp [mapAppend, mapGet, h1]
    · by_cases h1 : k0 = k'
      · subst h1
        simp [mapAppend, mapGet, h0, Ne.symm h0]
      · simp only [mapAppend, if_neg h0, mapGet, if_neg h1]
        exact countCase_mapGet_mapAppend t k c k' x

/-- The fold over a test's traits adds the test's case to each rendered
trait bucket. -/
theorem countCase_mapGet_traitsFold :
    ∀ (trs : List trait) (m : TMap) (tc : TestCase) (k : GoStr) (x : TestCase),
      countCase
          (mapGet (trs.foldl (fun m' tr => mapAppend m' tr.friendlyName tc) m) k) x
        = countCase (mapGet m k) x
          + (if tc = x then countStr (trs.map trait.friendlyName) k else 0)
  | [], m, tc, k, x => by simp [countStr]
  | tr :: trs, m, tc, k, x => by
    rw [show (tr :: trs).foldl (fun m' tr => mapAppend m' tr.friendlyName tc) m
          = trs.foldl (fun m' tr => mapAppend m' tr.friendlyName tc)
              (mapAppend m tr.friendlyName tc) from rfl]
    rw [countCase_mapGet_traitsFold trs _ tc k x, countCase_mapGet_mapAppend]
    simp only [List.map_cons, countStr]
    by_cases htc : tc = x
    · by_cases hk : tr.friendlyName = k
      · simp [htc, hk]
        omega
      · simp [htc, hk]
    · by_cases hk : tr.friendlyName = k
      · simp [htc, hk]
      · simp [htc, hk]

/-- The `uniqueTraits` loop body for one test raises the count of its case
in bucket `k` by the number of its bucket keys equal to `k`. -/
theorem countCase_mapGet_addTest (m : TMap) (t : test) (k : GoStr) (x : TestCase) :
    countCase (mapGet (addTest m t) k) x
      = countCase (mapGet m k) x
        + (if toCase t = x then countStr (keysOfTest t) k else 0) := by
  cases htr : t.Traits with
  | nil =>
    simp only [addTest, keysOfTest, htr, List.length_nil, List.foldl_nil]
    rw [show ((0 : Nat) == 0) = true from rfl]
    simp only [if_true]
    rw [countCase_mapGet_mapAppend]
    simp only [countStr]
    by_cases htc : toCase t = x
    · by_cases hk : ([] : GoStr) = k
      · simp [htc, hk]
      · simp [htc, hk]
    · by_cases hk : ([] : GoStr) = k
      · simp [htc, hk]
      · simp [htc, hk]
  | cons tr trs =>
    simp only [addTest, keysOfTest, htr]
    rw [show ((tr :: trs).length == 0) = false by simp]
    simp only [Bool.false_eq_true, if_false]
    exact countCase_mapGet_traitsFold (tr :: trs) m (toCase t) k x

/-- The `uniqueTraits` fold over all tests: the count of a case in a bucket
is the total number of times the source tests file that case under that
key. -/
theorem countCase_mapGet_testsFold :
    ∀ (L : List test) (m : TMap) (k : GoStr) (x : TestCase),
      countCase (mapGet (L.foldl addTest m) k) x
        = countCase (mapGet m k) x
          + ((L.map fun t => if toCase t = x then countStr (keysOfTest t) k else 0).sum)
  | [], m, k, x => by simp
  | t :: L, m, k, x => by
    rw [show (t :: L).foldl addTest m = L.foldl addTest (addTest m t) from rfl]
    rw [countCase_mapGet_testsFold L _ k x, countCase_mapGet_addTest]
    simp only [List.map_cons, List.sum_cons]
    omega

/-! ## Group-tree lemmas (for C3) -/

/-- The unfolding of `insertPath` on a non-empty path. -/
theorem insertPath_cons_eq (g : TestGroup) (n : GoStr) (rest : List GoStr)
    (tc : TestCase) :
    insertPath g (n :: rest) tc
      = TestGroup.mk g.Name g.Tests (insertChildren n (fun c =>
          match rest with
          | [] => TestGroup.mk c.Name (c.Tests ++ [tc]) c.Groups
          | r :: rs => insertPath c (r :: rs) tc) g.Groups) := by
  rw [insertPath.eq_def]

/-- `insertPath` never changes the name of the node it starts from. -/
theorem insertPath_Name (p : List GoStr) (g : TestGroup) (tc : TestCase) :
    (insertPath g p tc).Name = g.Name := by
  cases p with
  | nil => rfl
  | cons n rest => rw [insertPath_cons_eq]; rfl

/-- `insertPath` never changes the direct tests of the node it starts from
when the path is non-empty. -/
theorem insertPath_Tests (n : GoStr) (rest : List GoStr) (g : TestGroup)
    (tc : TestCase) :
    (insertPath g (n :: rest) tc).Tests = g.Tests := by
  rw [insertPath_cons_eq]; rfl

/-- `countAt` on the empty path counts in the root's own tests. -/
theorem countAt_nil (g : TestGroup) (x : TestCase) :
    countAt g [] x = countCase g.Tests x :=
  rfl

/-- `countAt` on a non-empty path descends through `findGroup`. -/
theorem countAt_cons (g : TestGroup) (m : GoStr) (p : List GoStr) (x : TestCase) :
    countAt g (m :: p) x
      = match findGroup g.Groups m with
        | some c => countAt c p x
        | none => 0 := by
  cases h : findGroup g.Groups m <;> simp [countAt, subgroupAt, h]

/-- A freshly created group contains nothing. -/
theorem countAt_fresh (n : GoStr) (q : List GoStr) (x : TestCase) :
    countAt (TestGroup.mk n [] []) q x = 0 := by
  cases q with
  | nil => rfl
  | cons m p => rw [countAt_cons]; rfl

/-- Updating the first child named `n` does not disturb lookups of other
names. -/
theorem findGroup_insertChildren_ne (n m : GoStr) (f : TestGroup → TestGroup)
    (hf : ∀ c, (f c).Name = c.Name) (hmn : m ≠ n) :
    ∀ l, findGroup (insertChildren n f l) m = findGroup l m
  | [] => by
    have h1 : (f (TestGroup.mk n [] [])).Name = n := by
      rw [hf]; rfl
    show (if (f (TestGroup.mk n [] [])).Name = m then some (f (TestGroup.mk n [] []))
          else findGroup [] m) = findGroup [] m
    rw [h1, if_neg (Ne.symm hmn)]
  | h :: t => by
    by_cases hh : h.Name = n
    · simp [insertChildren, hh, findGroup, hf, Ne.symm hmn]
    · by_cases hm : h.Name = m
      · simp [insertChildren, findGroup, hh, hm, hmn]
      · simp only [insertChildren, if_neg hh, findGroup, if_neg hm]
        exact findGroup_insertChildren_ne n m f hf hmn t

/-- Looking up `n` after updating the first child named `n` yields the
updated child (of the existing child, or of a fresh one). -/
theorem findGroup_insertChildren_eq (n : GoStr) (f : TestGroup → TestGroup)
    (hf : ∀ c, (f c).Name = c.Name) :
    ∀ l, findGroup (insertChildren n f l) n
      = some (f ((findGroup l n).getD (TestGroup.mk n [] [])))
  | [] => by
    have h1 : (f (TestGroup.mk n [] [])).Name = n := by
      rw [hf]; rfl
    show (if (f (TestGroup.mk n [] [])).Name = n then some (f (TestGroup.mk n [] []))
          else findGroup [] n)
        = some (f ((findGroup [] n).getD (TestGroup.mk n [] [])))
    rw [h1, if_pos rfl]
    rfl
  | h :: t => by
    by_cases hh : h.Name = n
    · simp [insertChildren, hh, findGroup, hf]
    · simp only [insertChildren, if_neg hh, findGroup, if_neg hh]
      exact findGroup_insertChildren_eq n f hf t

/-- Inserting a test case along a non-empty path raises `countAt` by one
exactly at that path and for that case, and changes no other count. -/
theorem countAt_insertPath :
    ∀ (p : List GoStr), p ≠ [] → ∀ (g : TestGroup) (tc x : TestCase) (q : List GoStr),
      countAt (insertPath g p tc) q x
        = countAt g q x + (if q = p ∧ x = tc then 1 else 0)
  | [], hp => absurd rfl hp
  | n :: rest, _ => by
    intro g tc x q
    rw [insertPath_cons_eq]
    have hf : ∀ c, ((fun (c : TestGroup) =>
        match rest with
        | [] => TestGroup.mk c.Name (c.Tests ++ [tc]) c.Groups
        | r :: rs => insertPath c (r :: rs) tc) c).Name = c.Name := by
      intro c
      cases rest with
      | nil => rfl
      | cons r rs => exact insertPath_Name (r :: rs) c tc
    cases q with
    | nil =>
      rw [countAt_nil, countAt_nil]
      simp [TestGroup.Tests]
    | cons m qrest =>
      rw [countAt_cons, countAt_cons]
      by_cases hmn : m = n
      · subst hmn
        rw [show (TestGroup.mk g.Name g.Tests
              (insertChildren m _ g.Groups)).Groups
              = insertChildren m _ g.Groups from rfl]
        rw [findGroup_insertChildren_eq m _ hf g.Groups]
        cases rest with
        | nil =>
          cases hfg : findGroup g.Groups m with
          | some c0 =>
            simp only [Option.getD_some]
            show countAt (TestGroup.mk c0.Name (c0.Tests ++ [tc]) c0.Groups) qrest x
                = countAt c0 qrest x + (if m :: qrest = [m] ∧ x = tc then 1 else 0)
            cases qrest with
            | nil =>
              rw [countAt_nil, countAt_nil]
              rw [show (TestGroup.mk c0.Name (c0.Tests ++ [tc]) c0.Groups).Tests
                    = c0.Tests ++ [tc] from rfl]
              rw [countCase_append]
              simp [countCase, eq_comm]
            | cons r' rs' =>
              rw [countAt_cons, countAt_cons]
              rw [show (TestGroup.mk c0.Name (c0.Tests ++ [tc]) c0.Groups).Groups
                    = c0.Groups from rfl]
              cases findGroup c0.Groups r' <;> simp
          | none =>
            simp only [Option.getD_none]
            show countAt (TestGroup.mk m [tc] []) qrest x
                = 0 + (if m :: qrest = [m] ∧ x = tc then 1 else 0)
            cases qrest with
            | nil =>
              rw [countAt_nil]
              simp [TestGroup.Tests, countCase, eq_comm]
            | cons r' rs' =>
              rw [countAt_cons]
              simp [TestGroup.Groups, findGroup]
        | cons r rs =>
          cases hfg : findGroup g.Groups m with
          | some c0 =>
            simp only [Option.getD_some]
            show countAt (insertPath c0 (r :: rs) tc) qrest x
                = countAt c0 qrest x
                  + (if m :: qrest = m :: r :: rs ∧ x = tc then 1 else 0)
            rw [countAt_insertPath (r :: rs) (by simp) c0 tc x qrest]
            simp
          | none =>
            simp only [Option.getD_none]
            show countAt (insertPath (TestGroup.mk m [] []) (r :: rs) tc) qrest x
                = 0 + (if m :: qrest = m :: r :: rs ∧ x = tc then 1 else 0)
            rw [countAt_insertPath (r :: rs) (by simp) _ tc x qrest]
            rw [countAt_fresh]
            simp
      · rw [show (TestGroup.mk g.Name g.Tests
              (insertChildren n _ g.Groups)).Groups
              = insertChildren n _ g.Groups from rfl]
        rw [findGroup_insertChildren_ne n m _ hf hmn g.Groups]
        cases findGroup g.Groups m <;> simp [hmn]

/-- One step of the bucket fold raises the count at the case's own path by
one for that case, and changes nothing else. -/
theorem countAt_placeCase (g : TestGroup) (tc x : TestCase) (q : List GoStr) :
    countAt (placeCase g tc) q x
      = countAt g q x + (if x = tc ∧ q = tc.groups then 1 else 0) := by
  unfold placeCase
  by_cases hg : tc.groups = []
  · rw [if_pos hg, hg]
    cases q with
    | nil =>
      rw [countAt_nil, countAt_nil]
      rw [show (TestGroup.mk g.Name (g.Tests ++ [tc]) g.Groups).Tests
            = g.Tests ++ [tc] from rfl]
      rw [countCase_append]
      simp [countCase, eq_comm]
    | cons m p =>
      rw [countAt_cons, countAt_cons]
      rw [show (TestGroup.mk g.Name (g.Tests ++ [tc]) g.Groups).Groups
            = g.Groups from rfl]
      cases findGroup g.Groups m <;> simp
  · rw [if_neg hg, countAt_insertPath tc.groups hg g tc x q]
    simp [and_comm]

/-- The bucket fold: the count at the case's own path equals the initial
count plus the number of bucket entries landing there. -/
theorem countAt_foldl_placeCase :
    ∀ (L : List TestCase) (g : TestGroup) (x : TestCase) (q : List GoStr),
      countAt (L.foldl placeCase g) q x
        = countAt g q x
          + ((L.map fun tc => if x = tc ∧ q = tc.groups then 1 else 0).sum)
  | [], g, x, q => by simp
  | tc :: L, g, x, q => by
    rw [show (tc :: L).foldl placeCase g = L.foldl placeCase (placeCase g tc) from rfl]
    rw [countAt_foldl_placeCase L _ x q, countAt_placeCase]
    simp only [List.map_cons, List.sum_cons]
    omega

/-- Entries landing at a case's own path are exactly the occurrences of
that case. -/
theorem landing_sum_eq_countCase :
    ∀ (L : List TestCase) (x : TestCase),
      ((L.map fun tc => if x = tc ∧ x.groups = tc.groups then 1 else 0).sum)
        = countCase L x
  | [], _ => rfl
  | tc :: L, x => by
    simp only [List.map_cons, List.sum_cons, countCase]
    rw [landing_sum_eq_countCase L x]
    by_cases hx : x = tc
    · simp [hx]
    · simp [hx, Ne.symm hx]

/-- The bucket fold preserves the root name. -/
theorem foldl_placeCase_Name :
    ∀ (L : List TestCase) (g : TestGroup),
      (L.foldl placeCase g).Name = g.Name
  | [], _ => rfl
  | tc :: L, g => by
    rw [show (tc :: L).foldl placeCase g = L.foldl placeCase (placeCase g tc) from rfl]
    rw [foldl_placeCase_Name L _]
    unfold placeCase
    by_cases hg : tc.groups = []
    · rw [if_pos hg]; rfl
    · rw [if_neg hg]; exact insertPath_Name _ _ _

/-- The name of the group tree built for a bucket key is that key. -/
theorem groupForKey_Name (m : TMap) (k : GoStr) : (groupForKey m k).Name = k := by
  unfold groupForKey
  rw [foldl_placeCase_Name]
  rfl

/-- In the group tree built for a bucket key, every case appears at its
own group path exactly as often as it appears in the bucket. -/
theorem countAt_groupForKey (m : TMap) (k : GoStr) (x : TestCase) :
    countAt (groupForKey m k) x.groups x = countCase (mapGet m k) x := by
  unfold groupForKey
  rw [countAt_foldl_placeCase, landing_sum_eq_countCase, countAt_fresh]
  omega

/-- The inserted key is among the map's keys. -/
theorem mem_keys_mapAppend_self :
    ∀ (m : TMap) (k : GoStr) (c : TestCase), k ∈ keysOfMap (mapAppend m k c)
  | [], k, c => by simp [mapAppend, keysOfMap]
  | (k0, v0) :: t, k, c => by
    by_cases h0 : k0 = k
    · simp [mapAppend, h0, keysOfMap]
    · simp only [mapAppend, if_neg h0, keysOfMap, List.map_cons, List.mem_cons]
      exact Or.inr (mem_keys_mapAppend_self t k c)

/-- `mapAppend` keeps every existing key. -/
theorem mem_keys_mapAppend_mono :
    ∀ (m : TMap) (k : GoStr) (c : TestCase) (k' : GoStr),
      k' ∈ keysOfMap m → k' ∈ keysOfMap (mapAppend m k c)
  | [], _, _, _, h => absurd h (by simp [keysOfMap])
  | (k0, v0) :: t, k, c, k', h => by
    by_cases h0 : k0 = k
    · subst h0
      simpa [mapAppend, keysOfMap] using h
    · simp only [keysOfMap, List.map_cons, List.mem_cons] at h
      simp only [mapAppend, if_neg h0, keysOfMap, List.map_cons, List.mem_cons]
      rcases h with h | h
      · exact Or.inl h
      · exact Or.inr (mem_keys_mapAppend_mono t k c k' h)

/-- The trait fold keeps every existing key. -/
theorem mem_keys_traitsFold_mono :
    ∀ (trs : List trait) (m : TMap) (tc : TestCase) (k' : GoStr),
      k' ∈ keysOfMap m →
      k' ∈ keysOfMap (trs.foldl (fun m' tr => mapAppend m' tr.friendlyName tc) m)
  | [], _, _, _, h => h
  | _tr :: trs, m, tc, k', h =>
    mem_keys_traitsFold_mono trs _ tc k' (mem_keys_mapAppend_mono m _ tc k' h)

/-- `addTest` keeps every existing key. -/
theorem mem_keys_addTest_mono (m : TMap) (t : test) (k' : GoStr)
    (h : k' ∈ keysOfMap m) : k' ∈ keysOfMap (addTest m t) := by
  simp only [addTest]
  split
  · exact mem_keys_traitsFold_mono _ _ _ _ (mem_keys_mapAppend_mono _ _ _ _ h)
  · exact mem_keys_traitsFold_mono _ _ _ _ h

/-- A traitless test puts the empty-string key into the map. -/
theorem nil_mem_keys_addTest (m : TMap) (t : test) (htr : t.Traits = []) :
    ([] : GoStr) ∈ keysOfMap (addTest m t) := by
  simp only [addTest, htr, List.length_nil, List.foldl_nil]
  rw [show ((0 : Nat) == 0) = true from rfl]
  simp only [if_true]
  exact mem_keys_mapAppend_self m [] (toCase t)

/-- The tests fold keeps every existing key. -/
theorem mem_keys_testsFold_mono :
    ∀ (L : List test) (m : TMap) (k' : GoStr),
      k' ∈ keysOfMap m → k' ∈ keysOfMap (L.foldl addTest m)
  | [], _, _, h => h
  | t :: L, m, k', h => mem_keys_testsFold_mono L _ k' (mem_keys_addTest_mono m t k' h)

/-- If some test of the list has no traits, the empty-string key is in the
built map. -/
theorem nil_mem_keys_testsFold :
    ∀ (L : List test) (m : TMap) (t0 : test),
      t0 ∈ L → t0.Traits = [] → ([] : GoStr) ∈ keysOfMap (L.foldl addTest m)
  | [], _, _, h, _ => absurd h (List.not_mem_nil _)
  | t :: L, m, t0, h, htr => by
    rcases List.mem_cons.mp h with heq | h
    · exact mem_keys_testsFold_mono L _ _ (nil_mem_keys_addTest m t (heq ▸ htr))
    · exact nil_mem_keys_testsFold L _ t0 h htr

/-- `lexLe` is antisymmetric. -/
theorem lexLe_antisymm : ∀ a b : GoStr,
    lexLe a b = true → lexLe b a = true → a = b
  | [], [], _, _ => rfl
  | [], _ :: _, _, hba => by simp [lexLe] at hba
  | _ :: _, [], hab, _ => by simp [lexLe] at hab
  | a :: s, b :: t, hab, hba => by
    rw [lexLe_cons] at hab hba
    by_cases h1 : a < b
    · rw [if_neg (Nat.lt_asymm h1), if_pos h1] at hba
      exact absurd hba (by simp)
    · by_cases h2 : b < a
      · rw [if_neg h1, if_pos h2] at hab
        exact absurd hab (by simp)
      · have hev : a = b := Nat.le_antisymm (Nat.not_lt.mp h2) (Nat.not_lt.mp h1)
        subst hev
        rw [if_neg h1, if_neg h1] at hab hba
        rw [lexLe_antisymm s t hab hba]

/-- Two sorted duplicate-free lists with the same members are equal: a
sorted duplicate-free enumeration of a key set is unique. -/
theorem sorted_nodup_ext :
    ∀ (l₁ l₂ : List GoStr),
      List.Pairwise (fun a b => lexLe a b = true) l₁ →
      List.Pairwise (fun a b => lexLe a b = true) l₂ →
      l₁.Nodup → l₂.Nodup → (∀ k, k ∈ l₁ ↔ k ∈ l₂) → l₁ = l₂
  | [], [], _, _, _, _, _ => rfl
  | [], y :: t, _, _, _, _, hm =>
    absurd ((hm y).mpr (List.mem_cons_self y t)) (List.not_mem_nil y)
  | x :: s, [], _, _, _, _, hm =>
    absurd ((hm x).mp (List.mem_cons_self x s)) (List.not_mem_nil x)
  | x :: s, y :: t, hp1, hp2, hn1, hn2, hm => by
    have hx2 : x ∈ y :: t := (hm x).mp (List.mem_cons_self x s)
    have hy1 : y ∈ x :: s := (hm y).mpr (List.mem_cons_self y t)
    have hxy : x = y := by
      rcases List.mem_cons.mp hx2 with h | hx3
      · exact h
      · rcases List.mem_cons.mp hy1 with h | hy3
        · exact h.symm
        · exact lexLe_antisymm x y ((List.pairwise_cons.mp hp1).1 y hy3)
            ((List.pairwise_cons.mp hp2).1 x hx3)
    subst hxy
    have hn1' := List.nodup_cons.mp hn1
    have hn2' := List.nodup_cons.mp hn2
    have hmem : ∀ k, k ∈ s ↔ k ∈ t := by
      intro k
      constructor
      · intro hk
        have hk2 : k ∈ x :: t := (hm k).mp (List.mem_cons_of_mem x hk)
        rcases List.mem_cons.mp hk2 with heq | hk3
        · exact absurd (heq ▸ hk) hn1'.1
        · exact hk3
      · intro hk
        have hk1 : k ∈ x :: s := (hm k).mpr (List.mem_cons_of_mem x hk)
        rcases List.mem_cons.mp hk1 with heq | hk3
        · exact absurd (heq ▸ hk) hn2'.1
        · exact hk3
    rw [sorted_nodup_ext s t (List.Pairwise.of_cons hp1) (List.Pairwise.of_cons hp2)
      hn1'.2 hn2'.2 hmem]

/-- Inserting a new element keeps the list duplicate-free. -/
theorem nodup_insertSorted (x : GoStr) :
    ∀ l, x ∉ l → l.Nodup → (insertSorted x l).Nodup
  | [], _, _ => List.nodup_singleton x
  | y :: t, hx, hn => by
    rcases List.nodup_cons.mp hn with ⟨hy, hnt⟩
    by_cases h : lexLe x y = true
    · show List.Nodup (if lexLe x y then _ else _)
      rw [if_pos h]
      exact List.nodup_cons.mpr ⟨hx, hn⟩
    · show List.Nodup (if lexLe x y then _ else _)
      rw [if_neg (by simpa using h)]
      refine List.nodup_cons.mpr ⟨?_, nodup_insertSorted x t
        (fun hc => hx (List.mem_cons_of_mem y hc)) hnt⟩
      intro hc
      rcases (mem_insertSorted x y t).mp hc with heq | hc2
      · apply hx
        rw [← heq]
        exact List.mem_cons_self y t
      · exact hy hc2

/-- Sorting a duplicate-free list yields a duplicate-free list. -/
theorem nodup_sortStrings_of_nodup :
    ∀ l : List GoStr, l.Nodup → (sortStrings l).Nodup
  | [], _ => List.Pairwise.nil
  | x :: t, hn => by
    rcases List.nodup_cons.mp hn with ⟨hx, hnt⟩
    show (insertSorted x (sortStrings t)).Nodup
    exact nodup_insertSorted x _ (fun hc => hx ((mem_sortStrings x t).mp hc))
      (nodup_sortStrings_of_nodup t hnt)

/-- A key of `mapAppend m k c` is a key of `m` or the inserted key. -/
theorem mem_keys_mapAppend_sub :
    ∀ (m : TMap) (k : GoStr) (c : TestCase) (k' : GoStr),
      k' ∈ keysOfMap (mapAppend m k c) → k' ∈ keysOfMap m ∨ k' = k
  | [], k, c, k', h => by
    simp only [mapAppend, keysOfMap, List.map_cons, List.map_nil, List.mem_cons,
      List.not_mem_nil, or_false] at h
    exact Or.inr h
  | (k0, v0) :: t, k, c, k', h => by
    by_cases h0 : k0 = k
    · rw [show mapAppend ((k0, v0) :: t) k c = (k0, v0 ++ [c]) :: t from by
        simp [mapAppend, h0]] at h
      left
      simpa [keysOfMap] using h
    · rw [show mapAppend ((k0, v0) :: t) k c = (k0, v0) :: mapAppend t k c from by
        simp [mapAppend, h0]] at h
      simp only [keysOfMap, List.map_cons, List.mem_cons] at h ⊢
      rcases h with h | h
      · exact Or.inl (Or.inl h)
      · rcases mem_keys_mapAppend_sub t k c k' h with h2 | h2
        · exact Or.inl (Or.inr h2)
        · exact Or.inr h2

/-- `mapAppend` keeps the key list duplicate-free: an existing key reuses
its entry, a new key is appended once. -/
theorem nodup_keys_mapAppend :
    ∀ (m : TMap) (k : GoStr) (c : TestCase),
      (keysOfMap m).Nodup → (keysOfMap (mapAppend m k c)).Nodup
  | [], k, c, _ => by simp [mapAppend, keysOfMap]
  | (k0, v0) :: t, k, c, hn => by
    by_cases h0 : k0 = k
    · rw [show mapAppend ((k0, v0) :: t) k c = (k0, v0 ++ [c]) :: t from by
        simp [mapAppend, h0]]
      simpa [keysOfMap] using hn
    · rw [show mapAppend ((k0, v0) :: t) k c = (k0, v0) :: mapAppend t k c from by
        simp [mapAppend, h0]]
      simp only [keysOfMap, List.map_cons] at hn ⊢
      rcases List.nodup_cons.mp hn with ⟨hk0, hnt⟩
      refine List.nodup_cons.mpr ⟨?_, nodup_keys_mapAppend t k c hnt⟩
      intro hc
      rcases mem_keys_mapAppend_sub t k c k0 hc with hc2 | hc2
      · exact hk0 hc2
      · exact h0 hc2

/-- The trait fold keeps the key list duplicate-free. -/
theorem nodup_keys_traitsFold :
    ∀ (trs : List trait) (m : TMap) (tc : TestCase),
      (keysOfMap m).Nodup →
      (keysOfMap (trs.foldl (fun m' tr => mapAppend m' tr.friendlyName tc) m)).Nodup
  | [], _, _, hn => hn
  | _tr :: trs, m, tc, hn =>
    nodup_keys_traitsFold trs _ tc (nodup_keys_mapAppend m _ tc hn)

/-- `addTest` on a traitless test is one append to the empty-string
bucket. -/
theorem addTest_eq_nil_traits (m : TMap) (t : test) (htr : t.Traits = []) :
    addTest m t = mapAppend m [] (toCase t) := by
  simp only [addTest, htr, List.length_nil, List.foldl_nil]
  rw [show ((0 : Nat) == 0) = true from rfl]
  simp only [if_true]

/-- `addTest` on a test with traits is the fold over its traits. -/
theorem addTest_eq_traits (m : TMap) (t : test) (htr : t.Traits ≠ []) :
    addTest m t
      = t.Traits.foldl (fun m' tr => mapAppend m' tr.friendlyName (toCase t)) m := by
  have hlen : (t.Traits.length == 0) = false := by
    cases ht : t.Traits with
    | nil => exact absurd ht htr
    | cons a l => rfl
  simp only [addTest, hlen, Bool.false_eq_true, if_false]

/-- `addTest` keeps the key list duplicate-free. -/
theorem nodup_keys_addTest (m : TMap) (t : test) (hn : (keysOfMap m).Nodup) :
    (keysOfMap (addTest m t)).Nodup := by
  by_cases htr : t.Traits = []
  · rw [addTest_eq_nil_traits m t htr]
    exact nodup_keys_mapAppend m [] (toCase t) hn
  · rw [addTest_eq_traits m t htr]
    exact nodup_keys_traitsFold t.Traits m (toCase t) hn

/-- The tests fold keeps the key list duplicate-free. -/
theorem nodup_keys_testsFold :
    ∀ (L : List test) (m : TMap), (keysOfMap m).Nodup →
      (keysOfMap (L.foldl addTest m)).Nodup
  | [], _, hn => hn
  | t :: L, m, hn => nodup_keys_testsFold L _ (nodup_keys_addTest m t hn)

/-- The built bucket map never holds a key twice. -/
theorem nodup_keys_buildTestMap (a : assembly) :
    (keysOfMap (buildTestMap a)).Nodup :=
  nodup_keys_testsFold (testsOf a) [] List.Pairwise.nil

/-- A key of the trait fold is a pre-existing key or the rendered name of
one of the folded traits. -/
theorem mem_keys_traitsFold_sub :
    ∀ (trs : List trait) (m : TMap) (tc : TestCase) (k' : GoStr),
      k' ∈ keysOfMap (trs.foldl (fun m' tr => mapAppend m' tr.friendlyName tc) m) →
      k' ∈ keysOfMap m ∨ ∃ tr, tr ∈ trs ∧ k' = tr.friendlyName
  | [], _, _, _, h => Or.inl h
  | tr0 :: trs, m, tc, k', h => by
    rcases mem_keys_traitsFold_sub trs _ tc k' h with h2 | ⟨tr, htr, heq⟩
    · rcases mem_keys_mapAppend_sub m tr0.friendlyName tc k' h2 with h3 | heq
      · exact Or.inl h3
      · exact Or.inr ⟨tr0, List.mem_cons_self _ _, heq⟩
    · exact Or.inr ⟨tr, List.mem_cons_of_mem _ htr, heq⟩

/-- A key of `addTest m t` is a pre-existing key or a bucket key of
`t`. -/
theorem mem_keys_addTest_sub (m : TMap) (t : test) (k' : GoStr)
    (h : k' ∈ keysOfMap (addTest m t)) : k' ∈ keysOfMap m ∨ k' ∈ keysOfTest t := by
  by_cases htr : t.Traits = []
  · rw [addTest_eq_nil_traits m t htr] at h
    rcases mem_keys_mapAppend_sub m [] (toCase t) k' h with h2 | h2
    · exact Or.inl h2
    · right
      unfold keysOfTest
      rw [if_pos htr, h2]
      exact List.mem_cons_self _ _
  · rw [addTest_eq_traits m t htr] at h
    rcases mem_keys_traitsFold_sub t.Traits m (toCase t) k' h with h2 | ⟨tr, htr', heq⟩
    · exact Or.inl h2
    · right
      unfold keysOfTest
      rw [if_neg htr]
      exact List.mem_map.mpr ⟨tr, htr', heq.symm⟩

/-- A key of the tests fold is a pre-existing key or a bucket key of one
of the folded tests. -/
theorem mem_keys_testsFold_sub :
    ∀ (L : List test) (m : TMap) (k' : GoStr),
      k' ∈ keysOfMap (L.foldl addTest m) →
      k' ∈ keysOfMap m ∨ ∃ t0, t0 ∈ L ∧ k' ∈ keysOfTest t0
  | [], _, _, h => Or.inl h
  | t :: L, m, k', h => by
    rcases mem_keys_testsFold_sub L _ k' h with h2 | ⟨t0, ht0, hk⟩
    · rcases mem_keys_addTest_sub m t k' h2 with h3 | h3
      · exact Or.inl h3
      · exact Or.inr ⟨t, List.mem_cons_self _ _, h3⟩
    · exact Or.inr ⟨t0, List.mem_cons_of_mem _ ht0, hk⟩

/-- The rendered name of every folded trait is a key of the trait
fold. -/
theorem mem_keys_traitsFold_self :
    ∀ (trs : List trait) (m : TMap) (tc : TestCase) (tr : trait),
      tr ∈ trs →
      tr.friendlyName
        ∈ keysOfMap (trs.foldl (fun m' tr' => mapAppend m' tr'.friendlyName tc) m)
  | [], _, _, _, h => absurd h (List.not_mem_nil _)
  | tr0 :: trs, m, tc, tr, h => by
    rcases List.mem_cons.mp h with heq | h2
    · rw [heq]
      exact mem_keys_traitsFold_mono trs _ tc _ (mem_keys_mapAppend_self m _ tc)
    · exact mem_keys_traitsFold_self trs _ tc tr h2

/-- Every bucket key of `t` is a key of `addTest m t`. -/
theorem mem_keys_addTest_self (m : TMap) (t : test) (k : GoStr)
    (hk : k ∈ keysOfTest t) : k ∈ keysOfMap (addTest m t) := by
  by_cases htr : t.Traits = []
  · rw [addTest_eq_nil_traits m t htr]
    have hknil : k = [] := by
      unfold keysOfTest at hk
      rw [if_pos htr] at hk
      simpa using hk
    rw [hknil]
    exact mem_keys_mapAppend_self m [] (toCase t)
  · rw [addTest_eq_traits m t htr]
    unfold keysOfTest at hk
    rw [if_neg htr] at hk
    rcases List.mem_map.mp hk with ⟨tr, htr', heq⟩
    rw [← heq]
    exact mem_keys_traitsFold_self t.Traits m (toCase t) tr htr'

/-- Every bucket key of every folded test is a key of the tests fold. -/
theorem mem_keys_testsFold_self :
    ∀ (L : List test) (m : TMap) (t0 : test) (k : GoStr),
      t0 ∈ L → k ∈ keysOfTest t0 → k ∈ keysOfMap (L.foldl addTest m)
  | [], _, _, _, h, _ => absurd h (List.not_mem_nil _)
  | t :: L, m, t0, k, h, hk => by
    rcases List.mem_cons.mp h with heq | h2
    · exact mem_keys_testsFold_mono L _ _ (mem_keys_addTest_self m t k (heq ▸ hk))
    · exact mem_keys_testsFold_self L _ t0 k h2 hk

/-- The keys of the built bucket map are exactly the bucket keys the
assembly's tests carry. -/
theorem mem_keys_buildTestMap (a : assembly) (k : GoStr) :
    k ∈ keysOfMap (buildTestMap a) ↔ ∃ t0, t0 ∈ testsOf a ∧ k ∈ keysOfTest t0 := by
  constructor
  · intro h
    rcases mem_keys_testsFold_sub (testsOf a) [] k h with h2 | ⟨t0, ht0, hk⟩
    · exact absurd h2 (List.not_mem_nil k)
    · exact ⟨t0, ht0, hk⟩
  · rintro ⟨t0, ht0, hk⟩
    exact mem_keys_testsFold_self (testsOf a) [] t0 k ht0 hk

/-- C3: for every assembly with at least one test, the top-level group
sequence is exactly the ascending enumeration of the rendered trait keys
of its tests.  A top-level group named `k` exists if and only if some
test of the assembly is filed under the bucket key `k` (one key per
rendered `Name - Value` trait of the test, the empty-string key for a
traitless test); the name sequence is lexicographically sorted and
duplicate-free, and any sorted duplicate-free list with exactly those
members equals it, so the sequence IS the sorted enumeration of the
keys; the empty-string group (present whenever some test carries no
traits) comes first; and inside the group named `k`, every test case
appears at its own nested-group path exactly as often as the assembly's
tests file it under the key `k`. -/
theorem c3_trait_grouping (a : assembly) (h : a.hasTests = true) :
    (∀ k : GoStr, (∃ g, g ∈ a.groupTests ∧ g.Name = k)
        ↔ (∃ t0, t0 ∈ testsOf a ∧ k ∈ keysOfTest t0))
    ∧ List.Pairwise (fun s t => lexLe s t = true) (a.groupTests.map TestGroup.Name)
    ∧ (a.groupTests.map TestGroup.Name).Nodup
    ∧ (∀ l : List GoStr, List.Pairwise (fun s t => lexLe s t = true) l →
        l.Nodup → (∀ k, k ∈ l ↔ (∃ t0, t0 ∈ testsOf a ∧ k ∈ keysOfTest t0)) →
        l = a.groupTests.map TestGroup.Name)
    ∧ ((∃ t0, t0 ∈ testsOf a ∧ t0.Traits = []) →
        (a.groupTests.map TestGroup.Name).head? = some [])
    ∧ (∀ g, g ∈ a.groupTests → ∀ x : TestCase,
        countAt g x.groups x = bucketSourceCount a g.Name x) := by
  have hgt : a.groupTests
      = (sortedKeys (buildTestMap a)).map (groupForKey (buildTestMap a)) := by
    unfold assembly.groupTests assembly.uniqueTraits
    rw [h]
    rfl
  have hnames : a.groupTests.map TestGroup.Name = sortedKeys (buildTestMap a) := by
    rw [hgt, List.map_map]
    calc (sortedKeys (buildTestMap a)).map
          (TestGroup.Name ∘ groupForKey (buildTestMap a))
        = (sortedKeys (buildTestMap a)).map (fun k => k) :=
          List.map_congr_left (fun k _ => groupForKey_Name _ k)
      _ = sortedKeys (buildTestMap a) := List.map_id' _
  have hmemnames : ∀ k : GoStr, k ∈ a.groupTests.map TestGroup.Name
      ↔ (∃ t0, t0 ∈ testsOf a ∧ k ∈ keysOfTest t0) := by
    intro k
    rw [hnames]
    show k ∈ sortStrings (keysOfMap (buildTestMap a)) ↔ _
    rw [mem_sortStrings]
    exact mem_keys_buildTestMap a k
  have hpair : List.Pairwise (fun s t => lexLe s t = true)
      (a.groupTests.map TestGroup.Name) := by
    rw [hnames]
    exact pairwise_sortStrings _
  have hnd : (a.groupTests.map TestGroup.Name).Nodup := by
    rw [hnames]
    show (sortStrings (keysOfMap (buildTestMap a))).Nodup
    exact nodup_sortStrings_of_nodup _ (nodup_keys_buildTestMap a)
  refine ⟨?_, hpair, hnd, ?_, ?_, ?_⟩
  · intro k
    rw [← hmemnames k]
    constructor
    · rintro ⟨g, hg, hname⟩
      exact List.mem_map.mpr ⟨g, hg, hname⟩
    · intro hk
      rcases List.mem_map.mp hk with ⟨g, hg, hname⟩
      exact ⟨g, hg, hname⟩
  · intro l hl hln hlk
    exact sorted_nodup_ext l _ hl hpair hln hnd
      (fun k => (hlk k).trans (hmemnames k).symm)
  · rintro ⟨t0, ht0, htr⟩
    rw [hnames]
    apply sorted_head_of_nil_mem _ (pairwise_sortStrings _)
    show ([] : GoStr) ∈ sortStrings (keysOfMap (buildTestMap a))
    rw [mem_sortStrings]
    exact nil_mem_keys_testsFold (testsOf a) [] t0 ht0 htr
  · intro g hg x
    rw [hgt] at hg
    rcases List.mem_map.mp hg with ⟨k, hk, rfl⟩
    rw [groupForKey_Name, countAt_groupForKey]
    show countCase (mapGet ((testsOf a).foldl addTest []) k) x
        = bucketSourceCount a k x
    rw [countCase_mapGet_testsFold]
    simp [mapGet, countCase, bucketSourceCount]

/-- C3 witness: an assembly with a traitless nested test and a flat test
carrying one trait satisfies every conjunct. -/
theorem c3_trait_grouping_witness :
    mixedAssembly.hasTests = true
    ∧ ((∀ k : GoStr, (∃ g, g ∈ mixedAssembly.groupTests ∧ g.Name = k)
          ↔ (∃ t0, t0 ∈ testsOf mixedAssembly ∧ k ∈ keysOfTest t0))
      ∧ List.Pairwise (fun s t => lexLe s t = true)
          (mixedAssembly.groupTests.map TestGroup.Name)
      ∧ (mixedAssembly.groupTests.map TestGroup.Name).Nodup
      ∧ (∀ l : List GoStr, List.Pairwise (fun s t => lexLe s t = true) l →
          l.Nodup →
          (∀ k, k ∈ l ↔ (∃ t0, t0 ∈ testsOf mixedAssembly ∧ k ∈ keysOfTest t0)) →
          l = mixedAssembly.groupTests.map TestGroup.Name)
      ∧ ((∃ t0, t0 ∈ testsOf mixedAssembly ∧ t0.Traits = []) →
          (mixedAssembly.groupTests.map TestGroup.Name).head? = some [])
      ∧ (∀ g, g ∈ mixedAssembly.groupTests → ∀ x : TestCase,
          countAt g x.groups x = bucketSourceCount mixedAssembly g.Name x)) :=
  ⟨rfl, c3_trait_grouping mixedAssembly rfl⟩

/-! ## Adequacy of the scanner's fuel

Each Go helper loop returns an end position at or after its start
position, so the scanning loop advances by at least one byte per
iteration; a fuel of `v.length` (or more) therefore drives the loop to
completion, and the result does not depend on the exact fuel. -/

/-- A satisfying head makes the counted run non-empty. -/
theorem takeWhileLen_cons_pos (p : Nat → Bool) (a : Nat) (t : List Nat)
    (h : p a = true) : takeWhileLen p (a :: t) = takeWhileLen p t + 1 := by
  simp [takeWhileLen, h]

/-- `getNumberEndPos` never moves left. -/
theorem le_getNumberEndPos (v : GoStr) (idx : Nat) :
    idx ≤ camelcase.getNumberEndPos v idx :=
  Nat.le_add_right idx _

/-- `getSpaceEndPos` never moves left. -/
theorem le_getSpaceEndPos (v : GoStr) (idx : Nat) :
    idx ≤ camelcase.getSpaceEndPos v idx :=
  Nat.le_add_right idx _

/-- `getWordEndPos` never moves left. -/
theorem le_getWordEndPos (v : GoStr) (idx : Nat) :
    idx ≤ camelcase.getWordEndPos v idx := by
  unfold camelcase.getWordEndPos
  by_cases h : (idx + 1 < v.length && goIsUpper (v.getD (idx + 1) 0)) = true
  · rw [if_pos h]
    have hand := h
    simp only [Bool.and_eq_true, decide_eq_true_eq] at hand
    obtain ⟨h1', h2⟩ := hand
    have hdrop : v.drop (idx + 1) = v.getD (idx + 1) 0 :: v.drop (idx + 2) := by
      rw [List.getD_eq_getElem _ _ h1']
      exact List.drop_eq_getElem_cons h1'
    have hrun : 1 ≤ takeWhileLen goIsUpper (v.drop (idx + 1)) := by
      rw [hdrop, takeWhileLen_cons_pos _ _ _ h2]
      omega
    by_cases hj : idx + 1 + takeWhileLen goIsUpper (v.drop (idx + 1)) < v.length
    · rw [if_pos hj]
      by_cases hd : goIsDigit (v.getD (idx + 1 + takeWhileLen goIsUpper (v.drop (idx + 1))) 0) = true
      · rw [if_pos hd]; omega
      · rw [if_neg hd]; omega
    · rw [if_neg hj]; omega
  · rw [if_neg h]
    exact Nat.le_add_right idx _

/-- Any two sufficient fuels drive the scanning loop to the same result:
the fuel `v.length` used by `Split` is at the fixed point. -/
theorem scanIndexesF_stable :
    ∀ (fuel fuel' : Nat) (v : GoStr) (pos : Nat),
      v.length ≤ pos + fuel → v.length ≤ pos + fuel' →
      camelcase.scanIndexesF fuel v pos = camelcase.scanIndexesF fuel' v pos
  | 0, 0, _, _, _, _ => rfl
  | 0, _ + 1, v, pos, h, _ => by
    have hnp : ¬ pos < v.length := by omega
    simp [camelcase.scanIndexesF, hnp]
  | _ + 1, 0, v, pos, _, h' => by
    have hnp : ¬ pos < v.length := by omega
    simp [camelcase.scanIndexesF, hnp]
  | fuel + 1, fuel' + 1, v, pos, h, h' => by
    simp only [camelcase.scanIndexesF]
    by_cases hp : pos < v.length
    · rw [if_pos hp, if_pos hp]
      by_cases c1 : goIsNumber (v.getD pos 0) = true
      · rw [if_pos c1, if_pos c1]
        rw [scanIndexesF_stable fuel fuel' v (camelcase.getNumberEndPos v pos + 1)
          (by have := le_getNumberEndPos v pos; omega)
          (by have := le_getNumberEndPos v pos; omega)]
      · rw [if_neg c1, if_neg c1]
        by_cases c2 : (goIsUpper (v.getD pos 0) || goIsLower (v.getD pos 0)) = true
        · rw [if_pos c2, if_pos c2]
          rw [scanIndexesF_stable fuel fuel' v (camelcase.getWordEndPos v pos + 1)
            (by have := le_getWordEndPos v pos; omega)
            (by have := le_getWordEndPos v pos; omega)]
        · rw [if_neg c2, if_neg c2]
          by_cases c3 : goIsSpace (v.getD pos 0) = true
          · rw [if_pos c3, if_pos c3]
            rw [scanIndexesF_stable fuel fuel' v (camelcase.getSpaceEndPos v pos + 1)
              (by have := le_getSpaceEndPos v pos; omega)
              (by have := le_getSpaceEndPos v pos; omega)]
          · rw [if_neg c3, if_neg c3]
            exact scanIndexesF_stable fuel fuel' v (pos + 1) (by omega) (by omega)
    · rw [if_neg hp, if_neg hp]

/-! ## When the split IS lossless

The byte classes the scanner handles.  On a non-empty, well-encoded input
all of whose bytes fall in these classes (in particular any ASCII
identifier of letters, digits and spaces), concatenating the split does
reproduce the input — the loss shown in the C4 evaluation needs a byte
outside these classes (there, the second byte of a multi-byte letter). -/

/-- A byte the scanning loop tokenizes (rather than steps over). -/
def handledByte (b : Nat) : Bool :=
  goIsNumber b || goIsUpper b || goIsLower b || goIsSpace b

/-- The counted run never exceeds the list. -/
theorem takeWhileLen_le_length (p : Nat → Bool) :
    ∀ l : List Nat, takeWhileLen p l ≤ l.length
  | [] => Nat.le_refl 0
  | a :: t => by
    rw [show takeWhileLen p (a :: t)
          = if p a = true then takeWhileLen p t + 1 else 0 from rfl]
    have := takeWhileLen_le_length p t
    by_cases h : p a = true
    · rw [if_pos h]
      simp only [List.length_cons]
      omega
    · rw [if_neg h]
      simp only [List.length_cons]
      omega

/-- The numeric run ends inside the string. -/
theorem getNumberEndPos_lt (v : GoStr) (pos : Nat) (hp : pos < v.length) :
    camelcase.getNumberEndPos v pos < v.length := by
  unfold camelcase.getNumberEndPos
  have h1 := takeWhileLen_le_length goIsNumber (v.drop (pos + 1))
  rw [List.length_drop] at h1
  omega

/-- The whitespace run ends inside the string. -/
theorem getSpaceEndPos_lt (v : GoStr) (pos : Nat) (hp : pos < v.length) :
    camelcase.getSpaceEndPos v pos < v.length := by
  unfold camelcase.getSpaceEndPos
  have h1 := takeWhileLen_le_length goIsSpace (v.drop (pos + 1))
  rw [List.length_drop] at h1
  omega

/-- The word run ends inside the string. -/
theorem getWordEndPos_lt (v : GoStr) (pos : Nat) (hp : pos < v.length) :
    camelcase.getWordEndPos v pos < v.length := by
  unfold camelcase.getWordEndPos
  by_cases h : (pos + 1 < v.length && goIsUpper (v.getD (pos + 1) 0)) = true
  · rw [if_pos h]
    have h1 := takeWhileLen_le_length goIsUpper (v.drop (pos + 1))
    rw [List.length_drop] at h1
    by_cases hj : pos + 1 + takeWhileLen goIsUpper (v.drop (pos + 1)) < v.length
    · rw [if_pos hj]
      by_cases hd : goIsDigit
          (v.getD (pos + 1 + takeWhileLen goIsUpper (v.drop (pos + 1))) 0) = true
      · rw [if_pos hd]; omega
      · rw [if_neg hd]; omega
    · rw [if_neg hj]; omega
  · rw [if_neg h]
    have h1 := takeWhileLen_le_length goIsLower (v.drop (pos + 1))
    rw [List.length_drop] at h1
    omega

/-- Past the end, the scanning loop emits nothing. -/
theorem scanIndexesF_at_end (fuel : Nat) (v : GoStr) (pos : Nat)
    (hp : ¬ pos < v.length) : camelcase.scanIndexesF fuel v pos = [] := by
  cases fuel with
  | zero => rfl
  | succ fuel => simp [camelcase.scanIndexesF, hp]

/-- Glueing a slice `[pos, e)` back onto the tail from `e`. -/
theorem take_append_drop_slice (v : GoStr) (pos e : Nat) (hpe : pos ≤ e) :
    (v.drop pos).take (e - pos) ++ v.drop e = v.drop pos := by
  have h1 : v.drop e = (v.drop pos).drop (e - pos) := by
    rw [List.drop_drop]
    congr 1
    omega
  rw [h1]
  exact List.take_append_drop _ _

/-- One recorded word end `endPos + 1` with `pos ≤ endPos < v.length`: the
extraction yields the slice `[pos, endPos + 1)` followed by what the rest
of the scan extracts from `endPos + 1`. -/
theorem concat_extract_step (v : GoStr) (pos endPos : Nat) (fuel : Nat)
    (he1 : pos ≤ endPos) (he2 : endPos < v.length)
    (hrec : endPos + 1 < v.length →
      concatAll (camelcase.extractWordsByIndexes v (endPos + 1)
        (camelcase.scanIndexesF fuel v (endPos + 1))) = v.drop (endPos + 1)) :
    concatAll (camelcase.extractWordsByIndexes v pos
      ((endPos + 1) :: camelcase.scanIndexesF fuel v (endPos + 1)))
      = v.drop pos := by
  have hle : endPos + 1 ≤ v.length := he2
  simp only [camelcase.extractWordsByIndexes, if_pos hle, concatAll]
  by_cases hend : endPos + 1 < v.length
  · rw [hrec hend]
    exact take_append_drop_slice v pos (endPos + 1) (by omega)
  · rw [scanIndexesF_at_end fuel v (endPos + 1) hend]
    simp only [camelcase.extractWordsByIndexes, concatAll, List.append_nil]
    have hlen : endPos + 1 = v.length := by omega
    rw [hlen]
    apply List.take_of_length_le
    rw [List.length_drop]

/-- On a fully handled string the scanning loop tokenizes the whole
remaining suffix: extracting the scanned words from `pos` and
concatenating them reproduces the suffix from `pos`. -/
theorem concat_extract_scan :
    ∀ (fuel : Nat) (v : GoStr) (pos : Nat),
      v.length ≤ pos + fuel → pos < v.length →
      (∀ b ∈ v, handledByte b = true) →
      concatAll (camelcase.extractWordsByIndexes v pos
        (camelcase.scanIndexesF fuel v pos)) = v.drop pos
  | 0, v, pos, h, hp, _ => by omega
  | fuel + 1, v, pos, h, hp, hall => by
    have hmem : v.getD pos 0 ∈ v := by
      rw [List.getD_eq_getElem _ _ hp]
      exact List.getElem_mem hp
    have hbyte : handledByte (v.getD pos 0) = true := hall _ hmem
    simp only [camelcase.scanIndexesF, if_pos hp]
    by_cases c1 : goIsNumber (v.getD pos 0) = true
    · rw [if_pos c1]
      exact concat_extract_step v pos _ fuel (le_getNumberEndPos v pos)
        (getNumberEndPos_lt v pos hp)
        (fun hend => concat_extract_scan fuel v _
          (by have := le_getNumberEndPos v pos; omega) hend hall)
    · rw [if_neg c1]
      by_cases c2 : (goIsUpper (v.getD pos 0) || goIsLower (v.getD pos 0)) = true
      · rw [if_pos c2]
        exact concat_extract_step v pos _ fuel (le_getWordEndPos v pos)
          (getWordEndPos_lt v pos hp)
          (fun hend => concat_extract_scan fuel v _
            (by have := le_getWordEndPos v pos; omega) hend hall)
      · rw [if_neg c2]
        by_cases c3 : goIsSpace (v.getD pos 0) = true
        · rw [if_pos c3]
          exact concat_extract_step v pos _ fuel (le_getSpaceEndPos v pos)
            (getSpaceEndPos_lt v pos hp)
            (fun hend => concat_extract_scan fuel v _
              (by have := le_getSpaceEndPos v pos; omega) hend hall)
        · exfalso
          simp only [handledByte, Bool.or_eq_true] at hbyte
          rcases hbyte with ((hb | hb) | hb) | hb
          · exact c1 hb
          · exact c2 (by rw [hb]; rfl)
          · exact c2 (by rw [hb]; simp)
          · exact c3 hb

/-- The Identifier Splitter is lossless on every non-empty well-encoded
input all of whose bytes it tokenizes — in particular on every ASCII
identifier made of letters, digits and spaces. -/
theorem split_lossless_on_handled (v : GoStr) (hv : v ≠ [])
    (hvalid : validUTF8 v = true) (hall : ∀ b ∈ v, handledByte b = true) :
    concatAll (camelcase.Split v) = v := by
  have hlen : 0 < v.length := List.length_pos.mpr hv
  have hval : camelcase.isValid v = true := by
    simp [camelcase.isValid, hvalid, hlen]
  simp only [camelcase.Split, hval, Bool.not_true, Bool.false_eq_true, if_false]
  rw [concat_extract_scan v.length v 0 (by omega) hlen hall]
  rfl

/-! ## C5: the amended tokenization rule as a recursive splitter

`ruleTokenLen` and `ruleSplit` are written from the AMENDED claim text,
not from the code: `ruleSplit` reads the input token by token, each token
being the maximal run the amended rule describes.  The theorem
`c5_split_rules_amended` proves the scanner equal to this rule-by-rule
reading on every non-empty well-encoded input all of whose bytes the
scanner tokenizes (every letter, digit or whitespace byte). -/

/-- `getD` looks through `drop`. -/
theorem getD_drop_nat : ∀ (l : List Nat) (n i : Nat),
    (l.drop n).getD i 0 = l.getD (n + i) 0
  | _, 0, _ => by rw [List.drop_zero, Nat.zero_add]
  | [], _ + 1, _ => by rfl
  | a :: t, n + 1, i => by
    rw [show (a :: t).drop (n + 1) = t.drop n from rfl]
    rw [getD_drop_nat t n i]
    rw [show n + 1 + i = (n + i) + 1 from by omega]
    rfl

/-- A suffix that starts inside the string, split at its head byte. -/
theorem drop_getD_cons (v : GoStr) (pos : Nat) (hp : pos < v.length) :
    v.drop pos = v.getD pos 0 :: v.drop (pos + 1) := by
  rw [List.getD_eq_getElem _ _ hp]
  exact List.drop_eq_getElem_cons hp

/-- Modelled from the spec (amended C5): the length of the first token
the amended rule reads from the front of a string.  A maximal digit run
is one token; a letter immediately followed by at least one uppercase
letter opens an acronym extending over the following maximal uppercase
run, except that the boundary falls one character earlier when that run
stops at a character other than a digit; any other letter extends over
the following maximal lowercase run; a maximal whitespace run is one
token; an unclassified character stands alone. -/
def ruleTokenLen (s : GoStr) : Nat :=
  if goIsNumber (s.getD 0 0) then takeWhileLen goIsNumber s
  else if goIsUpper (s.getD 0 0) || goIsLower (s.getD 0 0) then
    if 1 < s.length && goIsUpper (s.getD 1 0) then
      if 1 + takeWhileLen goIsUpper (s.drop 1) < s.length then
        if goIsDigit (s.getD (1 + takeWhileLen goIsUpper (s.drop 1)) 0) then
          1 + takeWhileLen goIsUpper (s.drop 1)
        else takeWhileLen goIsUpper (s.drop 1)
      else 1 + takeWhileLen goIsUpper (s.drop 1)
    else 1 + takeWhileLen goIsLower (s.drop 1)
  else if goIsSpace (s.getD 0 0) then takeWhileLen goIsSpace s
  else 1

/-- The rule always consumes at least one character of a non-empty
string. -/
theorem ruleTokenLen_pos : ∀ s : GoStr, s ≠ [] → 1 ≤ ruleTokenLen s
  | [], h => absurd rfl h
  | c :: t, _ => by
    unfold ruleTokenLen
    rw [show (c :: t).getD 0 0 = c from rfl]
    by_cases h1 : goIsNumber c = true
    · rw [if_pos h1, takeWhileLen_cons_pos _ _ _ h1]
      omega
    · rw [if_neg h1]
      by_cases h2 : (goIsUpper c || goIsLower c) = true
      · rw [if_pos h2]
        by_cases h3 : (1 < (c :: t).length && goIsUpper ((c :: t).getD 1 0)) = true
        · rw [if_pos h3]
          have hand := h3
          simp only [Bool.and_eq_true, decide_eq_true_eq] at hand
          obtain ⟨h3a, h3b⟩ := hand
          have hdrop : (c :: t).drop 1 = (c :: t).getD 1 0 :: (c :: t).drop 2 :=
            drop_getD_cons (c :: t) 1 h3a
          have hrun : 1 ≤ takeWhileLen goIsUpper ((c :: t).drop 1) := by
            rw [hdrop, takeWhileLen_cons_pos _ _ _ h3b]
            omega
          by_cases h4 : 1 + takeWhileLen goIsUpper ((c :: t).drop 1) < (c :: t).length
          · rw [if_pos h4]
            by_cases h5 : goIsDigit
                ((c :: t).getD (1 + takeWhileLen goIsUpper ((c :: t).drop 1)) 0) = true
            · rw [if_pos h5]; omega
            · rw [if_neg h5]; omega
          · rw [if_neg h4]; omega
        · rw [if_neg h3]
          omega
      · rw [if_neg h2]
        by_cases h3 : goIsSpace c = true
        · rw [if_pos h3, takeWhileLen_cons_pos _ _ _ h3]
          omega
        · rw [if_neg h3]

/-- Modelled from the spec (amended C5): token-by-token reading of a
string under the amended rule, fuelled so that every equation is a
definitional reduction; each step consumes at least one character, so
fuel `s.length` reads the whole string. -/
def ruleSplitF : Nat → GoStr → List GoStr
  | 0, _ => []
  | fuel + 1, s =>
    if s = [] then []
    else s.take (ruleTokenLen s) :: ruleSplitF fuel (s.drop (ruleTokenLen s))

/-- Modelled from the spec (amended C5): the full token-by-token reading
of a string under the amended rule. -/
def ruleSplit (s : GoStr) : List GoStr :=
  ruleSplitF s.length s

/-- Any two sufficient fuels read a string to the same token list. -/
theorem ruleSplitF_stable :
    ∀ (fuel fuel' : Nat) (s : GoStr), s.length ≤ fuel → s.length ≤ fuel' →
      ruleSplitF fuel s = ruleSplitF fuel' s
  | 0, 0, _, _, _ => rfl
  | 0, _ + 1, s, h, _ => by
    have hs : s = [] := List.eq_nil_of_length_eq_zero (by omega)
    rw [hs]
    rfl
  | _ + 1, 0, s, _, h' => by
    have hs : s = [] := List.eq_nil_of_length_eq_zero (by omega)
    rw [hs]
    rfl
  | fuel + 1, fuel' + 1, s, h, h' => by
    simp only [ruleSplitF]
    by_cases hs : s = []
    · rw [if_pos hs, if_pos hs]
    · rw [if_neg hs, if_neg hs]
      congr 1
      have hL := ruleTokenLen_pos s hs
      have hlen : (s.drop (ruleTokenLen s)).length = s.length - ruleTokenLen s :=
        List.length_drop _ _
      exact ruleSplitF_stable fuel fuel' _ (by omega) (by omega)

/-- The one-step unfolding of `ruleSplit`. -/
theorem ruleSplit_eq (s : GoStr) :
    ruleSplit s
      = if s = [] then []
        else s.take (ruleTokenLen s) :: ruleSplit (s.drop (ruleTokenLen s)) := by
  by_cases hs : s = []
  · rw [if_pos hs, hs]
    rfl
  · rw [if_neg hs]
    have hpos : 0 < s.length := List.length_pos.mpr hs
    obtain ⟨n, hn⟩ : ∃ n, s.length = n + 1 := ⟨s.length - 1, by omega⟩
    show ruleSplitF s.length s = _
    rw [hn]
    rw [show ruleSplitF (n + 1) s
          = if s = [] then []
            else s.take (ruleTokenLen s) :: ruleSplitF n (s.drop (ruleTokenLen s))
        from rfl]
    rw [if_neg hs]
    congr 1
    have hL := ruleTokenLen_pos s hs
    have hlen : (s.drop (ruleTokenLen s)).length = s.length - ruleTokenLen s :=
      List.length_drop _ _
    show ruleSplitF n _ = ruleSplitF (s.drop (ruleTokenLen s)).length _
    exact ruleSplitF_stable n _ _ (by omega) (by omega)

/-- One token of length `endPos + 1 - pos` read off the suffix at
`pos`. -/
theorem ruleSplit_cons (v : GoStr) (pos endPos : Nat)
    (he1 : pos ≤ endPos) (he2 : endPos < v.length)
    (hL : ruleTokenLen (v.drop pos) = endPos + 1 - pos) :
    ruleSplit (v.drop pos)
      = (v.drop pos).take (endPos + 1 - pos) :: ruleSplit (v.drop (endPos + 1)) := by
  have hne : v.drop pos ≠ [] := by
    intro hcon
    have hlc := congrArg List.length hcon
    rw [List.length_drop] at hlc
    simp only [List.length_nil] at hlc
    omega
  have hdd : (v.drop pos).drop (endPos + 1 - pos) = v.drop (endPos + 1) := by
    rw [List.drop_drop]
    congr 1
    omega
  rw [ruleSplit_eq (v.drop pos), if_neg hne, hL, hdd]

/-- The number-run token length agrees with the scanner's
`getNumberEndPos`. -/
theorem ruleTokenLen_number (v : GoStr) (pos : Nat) (hp : pos < v.length)
    (hc : goIsNumber (v.getD pos 0) = true) :
    ruleTokenLen (v.drop pos) = camelcase.getNumberEndPos v pos + 1 - pos := by
  have hdrop := drop_getD_cons v pos hp
  unfold ruleTokenLen camelcase.getNumberEndPos
  rw [hdrop]
  rw [show (v.getD pos 0 :: v.drop (pos + 1)).getD 0 0 = v.getD pos 0 from rfl]
  rw [if_pos hc, takeWhileLen_cons_pos _ _ _ hc]
  omega

/-- The whitespace-run token length agrees with the scanner's
`getSpaceEndPos`. -/
theorem ruleTokenLen_space (v : GoStr) (pos : Nat) (hp : pos < v.length)
    (hc1 : goIsNumber (v.getD pos 0) = false)
    (hc2 : (goIsUpper (v.getD pos 0) || goIsLower (v.getD pos 0)) = false)
    (hc3 : goIsSpace (v.getD pos 0) = true) :
    ruleTokenLen (v.drop pos) = camelcase.getSpaceEndPos v pos + 1 - pos := by
  have hdrop := drop_getD_cons v pos hp
  unfold ruleTokenLen camelcase.getSpaceEndPos
  rw [hdrop]
  rw [show (v.getD pos 0 :: v.drop (pos + 1)).getD 0 0 = v.getD pos 0 from rfl]
  rw [if_neg (by rw [hc1]; exact Bool.false_ne_true)]
  rw [if_neg (by rw [hc2]; exact Bool.false_ne_true)]
  rw [if_pos hc3]
  rw [takeWhileLen_cons_pos _ _ _ hc3]
  omega

/-- The letter-run token length (same-case run or acronym with its
back-off) agrees with the scanner's `getWordEndPos`. -/
theorem ruleTokenLen_word (v : GoStr) (pos : Nat) (hp : pos < v.length)
    (hc1 : goIsNumber (v.getD pos 0) = false)
    (hc2 : (goIsUpper (v.getD pos 0) || goIsLower (v.getD pos 0)) = true) :
    ruleTokenLen (v.drop pos) = camelcase.getWordEndPos v pos + 1 - pos := by
  have hget0 : (v.drop pos).getD 0 0 = v.getD pos 0 := by
    have h0 := getD_drop_nat v pos 0
    rw [Nat.add_zero] at h0
    exact h0
  have hget1 : (v.drop pos).getD 1 0 = v.getD (pos + 1) 0 := getD_drop_nat v pos 1
  have hdrop1 : (v.drop pos).drop 1 = v.drop (pos + 1) := by
    rw [List.drop_drop]
  have hlen : (v.drop pos).length = v.length - pos := List.length_drop _ _
  unfold ruleTokenLen camelcase.getWordEndPos
  rw [hget0]
  rw [if_neg (by rw [hc1]; exact Bool.false_ne_true)]
  rw [if_pos hc2]
  rw [hget1, hdrop1, hlen]
  have hgetT : (v.drop pos).getD (1 + takeWhileLen goIsUpper (v.drop (pos + 1))) 0
      = v.getD (pos + 1 + takeWhileLen goIsUpper (v.drop (pos + 1))) 0 := by
    rw [getD_drop_nat]
    congr 1
    omega
  rw [hgetT]
  have hd : (decide (1 < v.length - pos)) = (decide (pos + 1 < v.length)) := by
    by_cases hq : pos + 1 < v.length
    · rw [decide_eq_true hq, decide_eq_true (show 1 < v.length - pos from by omega)]
    · rw [decide_eq_false hq, decide_eq_false (show ¬ 1 < v.length - pos from by omega)]
  rw [hd]
  by_cases hb : (decide (pos + 1 < v.length) && goIsUpper (v.getD (pos + 1) 0)) = true
  · rw [if_pos hb, if_pos hb]
    have hand := hb
    simp only [Bool.and_eq_true, decide_eq_true_eq] at hand
    obtain ⟨hb1, hb2⟩ := hand
    have hdropp1 : v.drop (pos + 1) = v.getD (pos + 1) 0 :: v.drop (pos + 2) :=
      drop_getD_cons v (pos + 1) hb1
    have hT : 1 ≤ takeWhileLen goIsUpper (v.drop (pos + 1)) := by
      rw [hdropp1, takeWhileLen_cons_pos _ _ _ hb2]
      omega
    by_cases hj : pos + 1 + takeWhileLen goIsUpper (v.drop (pos + 1)) < v.length
    · rw [if_pos (show 1 + takeWhileLen goIsUpper (v.drop (pos + 1)) < v.length - pos
          from by omega)]
      rw [if_pos hj]
      by_cases hdig : goIsDigit
          (v.getD (pos + 1 + takeWhileLen goIsUpper (v.drop (pos + 1))) 0) = true
      · rw [if_pos hdig, if_pos hdig]
        omega
      · rw [if_neg hdig, if_neg hdig]
        omega
    · rw [if_neg (show ¬ 1 + takeWhileLen goIsUpper (v.drop (pos + 1)) < v.length - pos
          from by omega)]
      rw [if_neg hj]
      omega
  · rw [if_neg hb, if_neg hb]
    omega

/-- On a fully handled string the scanner's extraction, started at any
position, is exactly the token-by-token reading of the suffix under the
amended rule. -/
theorem extract_scan_eq_ruleSplit :
    ∀ (fuel : Nat) (v : GoStr) (pos : Nat),
      v.length ≤ pos + fuel →
      (∀ b ∈ v, handledByte b = true) →
      camelcase.extractWordsByIndexes v pos (camelcase.scanIndexesF fuel v pos)
        = ruleSplit (v.drop pos)
  | 0, v, pos, h, _ => by
    rw [List.drop_eq_nil_of_le (by omega)]
    rfl
  | fuel + 1, v, pos, h, hall => by
    by_cases hp : pos < v.length
    case neg =>
      rw [scanIndexesF_at_end (fuel + 1) v pos hp]
      rw [List.drop_eq_nil_of_le (by omega)]
      rfl
    case pos =>
      have hmem : v.getD pos 0 ∈ v := by
        rw [List.getD_eq_getElem _ _ hp]
        exact List.getElem_mem hp
      have hbyte : handledByte (v.getD pos 0) = true := hall _ hmem
      simp only [camelcase.scanIndexesF, if_pos hp]
      by_cases c1 : goIsNumber (v.getD pos 0) = true
      · rw [if_pos c1]
        have he1 := le_getNumberEndPos v pos
        have he2 := getNumberEndPos_lt v pos hp
        rw [ruleSplit_cons v pos (camelcase.getNumberEndPos v pos) he1 he2
          (ruleTokenLen_number v pos hp c1)]
        have hle : camelcase.getNumberEndPos v pos + 1 ≤ v.length := he2
        simp only [camelcase.extractWordsByIndexes, if_pos hle]
        congr 1
        exact extract_scan_eq_ruleSplit fuel v (camelcase.getNumberEndPos v pos + 1)
          (by omega) hall
      · rw [if_neg c1]
        have c1f : goIsNumber (v.getD pos 0) = false := by
          revert c1
          cases goIsNumber (v.getD pos 0) <;> simp
        by_cases c2 : (goIsUpper (v.getD pos 0) || goIsLower (v.getD pos 0)) = true
        · rw [if_pos c2]
          have he1 := le_getWordEndPos v pos
          have he2 := getWordEndPos_lt v pos hp
          rw [ruleSplit_cons v pos (camelcase.getWordEndPos v pos) he1 he2
            (ruleTokenLen_word v pos hp c1f c2)]
          have hle : camelcase.getWordEndPos v pos + 1 ≤ v.length := he2
          simp only [camelcase.extractWordsByIndexes, if_pos hle]
          congr 1
          exact extract_scan_eq_ruleSplit fuel v (camelcase.getWordEndPos v pos + 1)
            (by omega) hall
        · rw [if_neg c2]
          have c2f : (goIsUpper (v.getD pos 0) || goIsLower (v.getD pos 0)) = false := by
            revert c2
            cases goIsUpper (v.getD pos 0) <;> cases goIsLower (v.getD pos 0) <;> simp
          by_cases c3 : goIsSpace (v.getD pos 0) = true
          · rw [if_pos c3]
            have he1 := le_getSpaceEndPos v pos
            have he2 := getSpaceEndPos_lt v pos hp
            rw [ruleSplit_cons v pos (camelcase.getSpaceEndPos v pos) he1 he2
              (ruleTokenLen_space v pos hp c1f c2f c3)]
            have hle : camelcase.getSpaceEndPos v pos + 1 ≤ v.length := he2
            simp only [camelcase.extractWordsByIndexes, if_pos hle]
            congr 1
            exact extract_scan_eq_ruleSplit fuel v (camelcase.getSpaceEndPos v pos + 1)
              (by omega) hall
          · exfalso
            simp only [handledByte, Bool.or_eq_true] at hbyte
            rcases hbyte with ((hb | hb) | hb) | hb
            · exact c1 hb
            · exact c2 (by rw [hb]; rfl)
            · exact c2 (by rw [hb]; simp)
            · exact c3 hb

/-- C5 (amended): on every non-empty well-encoded input all of whose
bytes the scanner tokenizes — every letter, digit or whitespace byte —
the Identifier Splitter's output is exactly the token-by-token reading of
the input under the amended rule (maximal digit run; acronym opened by a
letter with at least one following uppercase letter, extending over the
following uppercase run and backing off one character when the run stops
at anything other than a digit; otherwise letter plus maximal lowercase
run; maximal whitespace run); in particular the documented examples hold,
`"aB"` is the single token `["aB"]`, and `"AB "` splits as
`["A", "B", " "]`. -/
theorem c5_split_rules_amended :
    (∀ v : GoStr, v ≠ [] → validUTF8 v = true →
        (∀ b ∈ v, handledByte b = true) → camelcase.Split v = ruleSplit v)
    ∧ camelcase.Split (strBytes "MyID") = [strBytes "My", strBytes "ID"]
    ∧ camelcase.Split (strBytes "HTML") = [strBytes "HTML"]
    ∧ camelcase.Split (strBytes "GL11Version")
        = [strBytes "GL", strBytes "11", strBytes "Version"]
    ∧ camelcase.Split (strBytes "Two  spaces")
        = [strBytes "Two", strBytes "  ", strBytes "spaces"]
    ∧ camelcase.Split (strBytes "EasyXMLParser")
        = [strBytes "Easy", strBytes "XML", strBytes "Parser"]
    ∧ camelcase.Split (strBytes "aB") = [strBytes "aB"]
    ∧ camelcase.Split (strBytes "AB ") = [strBytes "A", strBytes "B", strBytes " "] := by
  refine ⟨fun v hv hvalid hall => ?_, by decide, by decide, by decide, by decide,
    by decide, by decide, by decide⟩
  have hlen : 0 < v.length := List.length_pos.mpr hv
  have hval : camelcase.isValid v = true := by
    simp [camelcase.isValid, hvalid, hlen]
  simp only [camelcase.Split, hval, Bool.not_true, Bool.false_eq_true, if_false]
  rw [extract_scan_eq_ruleSplit v.length v 0 (by omega) hall]
  rw [List.drop_zero]

/-- The C5 amended theorem applied at the identifier `"GL11Version"`:
its hypotheses hold there, and the scanner agrees with the rule-by-rule
reading. -/
theorem c5_split_rules_amended_witness :
    (strBytes "GL11Version" ≠ [] ∧ validUTF8 (strBytes "GL11Version") = true
        ∧ (∀ b ∈ strBytes "GL11Version", handledByte b = true))
      ∧ camelcase.Split (strBytes "GL11Version") = ruleSplit (strBytes "GL11Version") :=
  ⟨⟨by decide, by decide, by decide⟩,
    c5_split_rules_amended.1 (strBytes "GL11Version") (by decide) (by decide) (by decide)⟩

example : ruleSplit (strBytes "aB") = [strBytes "aB"] := by decide
example : ruleSplit (strBytes "AB ") = [strBytes "A", strBytes "B", strBytes " "] := by decide
example : ruleSplit (strBytes "GL11Version")
    = [strBytes "GL", strBytes "11", strBytes "Version"] := by decide
example : ruleSplit (strBytes "EasyXMLParser")
    = [strBytes "Easy", strBytes "XML", strBytes "Parser"] := by decide
example : ruleSplit (strBytes "Two  spaces")
    = [strBytes "Two", strBytes "  ", strBytes "spaces"] := by decide
example : ruleSplit (strBytes "BFG9000") = [strBytes "BFG", strBytes "9000"] := by decide


-- A quick sanity check of the embedding against the Go test corpus.
example : camelcase.Split (strBytes "GL11Version") =
    [strBytes "GL", strBytes "11", strBytes "Version"] := by decide
example : camelcase.Split (strBytes "EasyXMLParser") =
    [strBytes "Easy", strBytes "XML", strBytes "Parser"] := by decide
example : camelcase.Split (strBytes "vimRPCPlugin") =
    [strBytes "vim", strBytes "RPC", strBytes "Plugin"] := by decide
example : camelcase.Split (strBytes "5May2000") =
    [strBytes "5", strBytes "May", strBytes "2000"] := by decide
example : camelcase.Split (strBytes "Two  spaces") =
    [strBytes "Two", strBytes "  ", strBytes "spaces"] := by decide
example : camelcase.Split (strBytes "BFG9000") =
    [strBytes "BFG", strBytes "9000"] := by decide
example : camelcase.Split (strBytes "lowercase") = [strBytes "lowercase"] := by decide
example : camelcase.Split (strBytes "ASample") =
    [strBytes "A", strBytes "Sample"] := by decide
example : camelcase.Split (strBytes "Html2Version") =
    [strBytes "Html", strBytes "2", strBytes "Version"] := by decide
example : gosentence.Transform [strBytes "A", strBytes "Collection"] [] =
    strBytes "A collection" := by decide
set_option maxRecDepth 8192 in
example : pathsName (strBytes "/home/user/development/file.dll")
    = strBytes "file.dll" := by decide
example : pathsName (strBytes "C:\\user\\development\\file.dll")
    = strBytes "file.dll" := by decide
example : xunit.trait.friendlyName ⟨strBytes "Category", strBytes "Unit"⟩
    = strBytes "Category - Unit" := by decide
set_option maxRecDepth 8192 in
example : xunit.test.friendlyName
    ⟨strBytes "NS1.Class.SubClass.TestClass.ParameterizedTestMethod(arg: null)",
     strBytes "NS1.Class.SubClass.TestClass.ParameterizedTestMethod",
     strBytes "Fail", 0, []⟩
    = strBytes "Parameterized test method" := by decide
